import Mathlib

/-!
Verification of the Fax_automation document-intake engine.

This file shallowly embeds the Python sources (helper.py, process_fax.py,
backend/process_fax.py, backend/ollama_agent.py, correction_store_rag.py,
talkehr_agent.py) as executable Lean definitions and proves the frozen
claims about them.  External collaborators (the fuzzywuzzy / rapidfuzz
similarity ratios, the embedding backend and the vector index) are
modelled at their documented boundaries: ratio functions are parameters,
the vector index is a key-value store with squared-L2 nearest-neighbour
query.  Strings are modelled over their ASCII fragment (Python's `\w`,
`\s`, `lower` restricted to ASCII).
-/

namespace Fax

/-! ### Character classes of the Python regexes (ASCII fragment) -/

/-- Python regex `\w` on ASCII: letters, digits, underscore. -/
def pyWordChar (c : Char) : Bool := c.isAlphanum || c = '_'

/-- Python regex `\s` on ASCII: space, tab, newline, carriage return,
vertical tab, form feed. -/
def pySpace (c : Char) : Bool :=
  c = ' ' || c = '\t' || c = '\n' || c = '\r' || c = '\x0b' || c = '\x0c'

/-- Model of `re.sub(r"[^\w\s]", " ", ·)`: every character that is neither a
word character nor whitespace becomes a single space. -/
def punctToSpace (l : List Char) : List Char :=
  l.map fun c => if pyWordChar c || pySpace c then c else ' '

/-- Model of `str.lower()` (ASCII). -/
def lowerChars (l : List Char) : List Char := l.map Char.toLower

/-- Model of `re.sub(r"\s+", " ", ·)`: each maximal whitespace run becomes
one space.  The boolean flag records whether the previous character was part
of a whitespace run already emitted as a single space. -/
def collapseWsAux : Bool → List Char → List Char
  | _, [] => []
  | inRun, c :: rest =>
    if pySpace c then
      if inRun then collapseWsAux true rest
      else ' ' :: collapseWsAux true rest
    else c :: collapseWsAux false rest

def collapseWs (l : List Char) : List Char := collapseWsAux false l

/-- Model of `str.strip()`: drop whitespace at both ends. -/
def stripWs (l : List Char) : List Char :=
  ((l.dropWhile pySpace).reverse.dropWhile pySpace).reverse

/-- Model of Python `str.split()` (no separator): split on whitespace runs,
dropping empty pieces. -/
def pySplit (l : List Char) : List (List Char) :=
  (l.splitOnP pySpace).filter (· ≠ [])

/-- `str.split()` returning Lean strings. -/
def pySplitStr (s : String) : List String :=
  (pySplit s.data).map fun t => ⟨t⟩

/-! ### helper.py -/

/-- helper.py `normalize_name`:
`re.sub(r"\s+", " ", re.sub(r"[^\w\s]", " ", (text or "")).lower()).strip()`. -/
def normalize_name (s : String) : String :=
  ⟨stripWs (collapseWs (lowerChars (punctToSpace s.data)))⟩

/-- The part of `raw` after the first comma (Python `raw.split(",", 1)[1]`). -/
def afterFirstComma (l : List Char) : List Char :=
  (l.dropWhile (· ≠ ',')).drop 1

/-- The part of `raw` before the first comma (Python `raw.split(",", 1)[0]`). -/
def beforeFirstComma (l : List Char) : List Char :=
  l.takeWhile (· ≠ ',')

/-- helper.py `first_name_only`.  `none` models the `IndexError` raised when
the no-comma branch indexes `[0]` on an empty token list (e.g. a nonempty
input that normalizes to the empty string). -/
def first_name_only (raw : String) : Option String :=
  if raw = "" then some "" else
  if raw.data.contains ',' then
    let after := stripWs (afterFirstComma raw.data)
    if after ≠ [] then
      match pySplit after with
      | t :: _ => some ⟨lowerChars t⟩
      | [] => none
    else some ""
  else
    match pySplit (normalize_name raw).data with
    | t :: _ => some ⟨t⟩
    | [] => none

/-- helper.py `last_name_tokens`. -/
def last_name_tokens (raw : String) : List String :=
  if raw = "" then [] else
  if raw.data.contains ',' then
    (pySplitStr (normalize_name ⟨beforeFirstComma raw.data⟩)).filter (· ≠ "")
  else
    let toks := pySplitStr (normalize_name raw)
    if toks.length > 1 then toks.drop 1 else []

/-- Boundary model of the fuzzywuzzy similarity backend used by helper.py:
both ratios return an integer score (fuzzywuzzy returns ints in 0..100). -/
structure FuzzRatios where
  token_set_ratio : String → String → ℕ
  part_ratio : String → String → ℕ

/-- helper.py `strong_enough_match` (defaults `base_threshold=0.70`,
`relaxed_threshold=0.60`, `last_partial_thresh=80`).  Returns
`(ok, score_used, reason)`; `none` models the exception propagated from
`first_name_only`. -/
def strong_enough_match (F : FuzzRatios) (target_full candidate_full : String)
    (base_threshold relaxed_threshold : ℚ) (last_thresh : ℕ) :
    Option (Bool × ℚ × String) :=
  let t_norm := normalize_name target_full
  let c_norm := normalize_name candidate_full
  let score_token : ℚ := (F.token_set_ratio t_norm c_norm : ℚ) / 100
  let score_part : ℚ := (F.part_ratio t_norm c_norm : ℚ) / 100
  match first_name_only target_full, first_name_only candidate_full with
  | some ft, some fc =>
    let first_ok := ft = fc
    let last_ok := (last_name_tokens target_full).any
      fun ln => last_thresh ≤ F.part_ratio ln c_norm
    some (
      if base_threshold ≤ score_token then
        (true, score_token, "token_set >= base_threshold")
      else if first_ok ∧ relaxed_threshold ≤ score_token then
        (true, score_token, "first name exact + relaxed token_set")
      else if first_ok ∧ last_ok then
        (true, max score_token score_part, "first exact + last partial")
      else if base_threshold ≤ score_part then
        (true, score_part, "partial >= base_threshold")
      else
        (false, score_token, "no rule matched"))
  | _, _ => none

/-! ### Claim C1: the decision rules, formalised from the spec's words -/

/-- Evaluate a list of (guard, score) rules in order, first match wins;
no match yields `(false, defaultScore)`.  This follows the spec's phrase
"decision rule, evaluated in order, first match wins". -/
def rule_cascade (rules : List (Bool × ℚ)) (defaultScore : ℚ) : Bool × ℚ :=
  match rules.find? (fun r => r.1) with
  | some r => (true, r.2)
  | none => (false, defaultScore)

/-- Modelled from the spec: the identity matcher as the claim states it,
with thresholds base = 0.70, relaxed = 0.60, surnamePartial = 0.80, the
set-overlap and substring-overlap scores on the 0..1 scale, and the four
rules evaluated in order with first match winning. -/
def claim_matcher (F : FuzzRatios) (target candidate : String) :
    Option (Bool × ℚ) :=
  let t_norm := normalize_name target
  let c_norm := normalize_name candidate
  let setOverlap : ℚ := (F.token_set_ratio t_norm c_norm : ℚ) / 100
  let subOverlap : ℚ := (F.part_ratio t_norm c_norm : ℚ) / 100
  match first_name_only target, first_name_only candidate with
  | some ft, some fc =>
    let firstEq : Bool := ft = fc
    let surnameOk : Bool := (last_name_tokens target).any
      fun ln => (8 : ℚ) / 10 ≤ (F.part_ratio ln c_norm : ℚ) / 100
    some (rule_cascade
      [((7 : ℚ) / 10 ≤ setOverlap, setOverlap),
       (firstEq && decide ((3 : ℚ) / 5 ≤ setOverlap), setOverlap),
       (firstEq && surnameOk, max setOverlap subOverlap),
       ((7 : ℚ) / 10 ≤ subOverlap, subOverlap)]
      setOverlap)
  | _, _ => none

theorem ratio_scale_iff (th k : ℕ) :
    ((th : ℚ) / 100 ≤ (k : ℚ) / 100) ↔ th ≤ k := by
  rw [div_le_div_iff_of_pos_right (by norm_num)]
  exact_mod_cast Iff.rfl

theorem surname_scale_iff (k : ℕ) :
    ((8 : ℚ) / 10 ≤ (k : ℚ) / 100) ↔ 80 ≤ k := by
  have h : (8 : ℚ) / 10 = (80 : ℚ) / 100 := by norm_num
  rw [h]
  exact_mod_cast ratio_scale_iff 80 k

theorem any_congr_bool {α : Type} (l : List α) (f g : α → Bool)
    (h : ∀ x ∈ l, f x = g x) : l.any f = l.any g := by
  induction l with
  | nil => rfl
  | cons a t ih =>
    simp only [List.any_cons]
    rw [h a (by simp), ih (fun x hx => h x (by simp [hx]))]

/-- C1: for every target string and candidate string (and every behaviour of
the external similarity backend), `strong_enough_match` at its defaults
(base = 0.70, relaxed = 0.60, surnamePartial = 0.80) computes exactly the
spec's rule cascade: rules 1-4 evaluated in order, first match wins, with
the stated guards and reported scores, and no match otherwise. -/
theorem c1_decision_rule_order (F : FuzzRatios) (target candidate : String) :
    (strong_enough_match F target candidate (7 / 10) (3 / 5) 80).map
      (fun r => (r.1, r.2.1)) = claim_matcher F target candidate := by
  unfold strong_enough_match claim_matcher
  cases hft : first_name_only target with
  | none => simp
  | some ft =>
    cases hfc : first_name_only candidate with
    | none => simp
    | some fc =>
      simp only [Option.map_some]
      have hsur :
          ((last_name_tokens target).any
            fun ln => decide ((80 : ℕ) ≤ F.part_ratio ln (normalize_name candidate))) =
          ((last_name_tokens target).any
            fun ln => decide ((8 : ℚ) / 10 ≤ (F.part_ratio ln (normalize_name candidate) : ℚ) / 100)) := by
        apply any_congr_bool
        intro x _
        simp [surname_scale_iff]
      simp only [rule_cascade, List.find?]
      by_cases h1 : (7 : ℚ) / 10 ≤ (F.token_set_ratio (normalize_name target) (normalize_name candidate) : ℚ) / 100
      · simp [h1]
      · by_cases hfe : ft = fc
        · by_cases h2 : (3 : ℚ) / 5 ≤ (F.token_set_ratio (normalize_name target) (normalize_name candidate) : ℚ) / 100
          · simp [h1, hfe, h2]
          · by_cases h3 : ((last_name_tokens target).any
                fun ln => decide ((80 : ℕ) ≤ F.part_ratio ln (normalize_name candidate))) = true
            · simp [h1, hfe, h2, h3, ← hsur]
            · simp only [Bool.not_eq_true] at h3
              by_cases h4 : (7 : ℚ) / 10 ≤ (F.part_ratio (normalize_name target) (normalize_name candidate) : ℚ) / 100
              · simp [h1, hfe, h2, h3, ← hsur, h4]
              · simp [h1, hfe, h2, h3, ← hsur, h4]
        · by_cases h4 : (7 : ℚ) / 10 ≤ (F.part_ratio (normalize_name target) (normalize_name candidate) : ℚ) / 100
          · simp [h1, hfe, h4]
          · simp [h1, hfe, h4]

/-! ### process_fax.py / backend/process_fax.py: AgentState and aggregator -/

/-- The `AgentState` TypedDict of process_fax.py. -/
structure AgentState where
  input_text : String
  date_of_birth : String
  patient_name : String
  provider_name : String
  doc_type : String
  doc_subtype : String
  comment : String
deriving DecidableEq, Repr

/-- The `mapping` dict of `aggregator`: doc_type label to forced provider. -/
def mapping_lookup (doc_type : String) : Option String :=
  if doc_type = "Prior Authorization" then some "Medical a-Records"
  else if doc_type = "Medical a-Records" then some "Prior a-Authorizations"
  else if doc_type = "Forms" then some "Forms A-staff"
  else none

/-- The blocked substrings `("azz", "fazal")` of `aggregator`. -/
def blocked_tokens : List String := ["azz", "fazal"]

/-- Python `t in s.casefold()` (ASCII casefold = lower). -/
def containsToken (s t : String) : Bool :=
  decide (t.data <:+: lowerChars s.data)

/-- `aggregator` of process_fax.py / backend/process_fax.py: after the merge,
force `provider_name` from the doc_type mapping, then force it to
"Asim Ali" when it (case-insensitively) contains a blocked substring. -/
def aggregator (state : AgentState) : AgentState :=
  let state1 :=
    match mapping_lookup state.doc_type with
    | some v => { state with provider_name := v }
    | none => state
  if state1.provider_name ≠ "" ∧
      blocked_tokens.any (fun t => containsToken state1.provider_name t) then
    { state1 with provider_name := "Asim Ali" }
  else state1

/-- The first static rule override, as the claim states it: if the category
equals a known label, force `provider_name` to the mapped value. -/
def category_rule (state : AgentState) : AgentState :=
  match mapping_lookup state.doc_type with
  | some v => { state with provider_name := v }
  | none => state

/-- The second static rule override, as the claim states it: if
`provider_name` case-insensitively contains a blocked substring, force it to
the fixed fallback name. -/
def blocked_rule (state : AgentState) : AgentState :=
  if state.provider_name ≠ "" ∧
      blocked_tokens.any (fun t => containsToken state.provider_name t) then
    { state with provider_name := "Asim Ali" }
  else state

/-- C2: the merge-stage overrides are applied in fixed order — `aggregator`
is exactly the category rule followed by the blocked-substring rule; the
category rule forces `provider_name` to the mapped value of a known label
(and does nothing else); the blocked-substring rule, evaluated second on the
first rule's result, forces `provider_name` to the fallback name exactly
when that result's name contains a blocked substring — so it can overwrite
the provider name present after the first rule, as the concrete final
conjunct shows. -/
theorem c2_rule_override_order :
    (∀ s : AgentState, aggregator s = blocked_rule (category_rule s)) ∧
    (∀ s : AgentState, ∀ v, mapping_lookup s.doc_type = some v →
      category_rule s = { s with provider_name := v }) ∧
    (∀ s : AgentState, mapping_lookup s.doc_type = none → category_rule s = s) ∧
    (∀ s : AgentState, blocked_rule s =
      if s.provider_name ≠ "" ∧
          blocked_tokens.any (fun t => containsToken s.provider_name t) then
        { s with provider_name := "Asim Ali" }
      else s) ∧
    (aggregator ⟨"txt", "", "Jane Doe", "Dr. Fazal Khan", "Labs", "Hospital A", "c"⟩ =
      ⟨"txt", "", "Jane Doe", "Asim Ali", "Labs", "Hospital A", "c"⟩) := by
  refine ⟨fun s => ?_, fun s v hv => ?_, fun s hv => ?_, fun s => rfl, by decide⟩
  · unfold aggregator blocked_rule category_rule
    rfl
  · unfold category_rule
    rw [hv]
  · unfold category_rule
    rw [hv]

theorem c2_rule_override_order_witness :
    mapping_lookup "Forms" = some "Forms A-staff" ∧
    mapping_lookup "Labs" = none ∧
    category_rule ⟨"t", "d", "p", "x", "Forms", "s", "c"⟩ =
      ⟨"t", "d", "p", "Forms A-staff", "Forms", "s", "c"⟩ ∧
    category_rule ⟨"t", "d", "p", "x", "Labs", "s", "c"⟩ =
      ⟨"t", "d", "p", "x", "Labs", "s", "c"⟩ := by
  refine ⟨by decide, by decide, ?_, ?_⟩
  · exact c2_rule_override_order.2.1 ⟨"t", "d", "p", "x", "Forms", "s", "c"⟩
      "Forms A-staff" (by decide)
  · exact c2_rule_override_order.2.2.1 ⟨"t", "d", "p", "x", "Labs", "s", "c"⟩
      (by decide)

/-! ### backend/process_fax.py: the RAG correction stage and the pipeline -/

/-- A stored operator correction: a field-name-to-value mapping (a Python
dict, here an association list with the first binding of a key winning). -/
abbrev Correction := List (String × String)

/-- `_apply_rag_corrections` of backend/process_fax.py.  The correction
store is modelled at its boundary as `query`, whose `Except.error` case
models any exception raised while constructing or querying the store; the
whole lookup is wrapped in try/except, so an error leaves the state
untouched.  A found correction overrides only the keys `doc_type` and
`doc_subtype`, and only when present with a truthy (nonempty) value. -/
def apply_rag_corrections (query : String → Except String Correction)
    (state : AgentState) : AgentState :=
  if state.input_text = "" then state
  else
    match query state.input_text with
    | .error _ => state
    | .ok correction =>
      if correction = [] then state
      else
        let s1 :=
          match correction.lookup "doc_type" with
          | some v => if v ≠ "" then { state with doc_type := v } else state
          | none => state
        match correction.lookup "doc_subtype" with
        | some v => if v ≠ "" then { s1 with doc_subtype := v } else s1
        | none => s1

/-- Boundary model of the four concurrently-run field extractors of
backend/ollama_agent.py (external inference calls): each is a function of
the document text. -/
structure Extractors where
  extract_information : String → String × String × String
  find_doctype : String → String
  find_sub_doctype : String → String
  generate_document_comments : String → String

/-- `init_agent_state` of backend/process_fax.py. -/
def init_agent_state : AgentState := ⟨"", "", "", "", "", "", ""⟩

/-- The compiled `parallel_workflow` of backend/process_fax.py: the four
extractor nodes each write their owned fields of the initial state, and the
`aggregator` node then applies the static rule overrides to the merge. -/
def run_parallel_workflow (E : Extractors) (input_text : String) : AgentState :=
  let idents := E.extract_information input_text
  aggregator
    { input_text := input_text
      date_of_birth := idents.1
      patient_name := idents.2.1
      provider_name := idents.2.2
      doc_type := E.find_doctype input_text
      doc_subtype := E.find_sub_doctype input_text
      comment := E.generate_document_comments input_text }

/-- `process_fax` of backend/process_fax.py: run the workflow (merge plus
rule overrides), then apply RAG corrections. -/
def process_fax (E : Extractors) (query : String → Except String Correction)
    (input_text : String) : AgentState :=
  apply_rag_corrections query (run_parallel_workflow E input_text)

theorem aggregator_preserves_input_text (s : AgentState) :
    (aggregator s).input_text = s.input_text := by
  unfold aggregator
  cases mapping_lookup s.doc_type <;> dsimp <;> split <;> rfl

/-- C3: if the correction-memory lookup raises, `process_fax` still returns
the record exactly as it stood after the merge and static rule overrides
(`run_parallel_workflow`), with no error surfaced to the caller. -/
theorem c3_rag_failure_fail_open (E : Extractors)
    (query : String → Except String Correction) (input_text err : String)
    (hq : ∀ t : String, query t = Except.error err) :
    process_fax E query input_text = run_parallel_workflow E input_text := by
  unfold process_fax apply_rag_corrections
  split
  · rfl
  · rw [hq]

theorem c3_rag_failure_fail_open_witness :
    process_fax
      ⟨fun _ => ("01/02/2003", "Jane Doe", "Dr. Who"), fun _ => "Labs",
        fun _ => "Quest", fun _ => "note"⟩
      (fun _ => Except.error "store down") "some fax text" =
    run_parallel_workflow
      ⟨fun _ => ("01/02/2003", "Jane Doe", "Dr. Who"), fun _ => "Labs",
        fun _ => "Quest", fun _ => "note"⟩ "some fax text" :=
  c3_rag_failure_fail_open _ _ "some fax text" "store down" (fun _ => rfl)

/-- C10: the correction stage mutates at most `doc_type` and `doc_subtype`:
whatever the query returns, `input_text`, `date_of_birth`, `patient_name`,
`provider_name` and `comment` are unchanged; and a missing or empty
`doc_type`/`doc_subtype` override is never applied, so it cannot clear an
already-extracted field. -/
theorem c10_rag_frame (query : String → Except String Correction)
    (s : AgentState) :
    (apply_rag_corrections query s).input_text = s.input_text ∧
    (apply_rag_corrections query s).date_of_birth = s.date_of_birth ∧
    (apply_rag_corrections query s).patient_name = s.patient_name ∧
    (apply_rag_corrections query s).provider_name = s.provider_name ∧
    (apply_rag_corrections query s).comment = s.comment ∧
    (∀ corr, query s.input_text = Except.ok corr →
      (corr.lookup "doc_type" = none ∨ corr.lookup "doc_type" = some "") →
      (apply_rag_corrections query s).doc_type = s.doc_type) ∧
    (∀ corr, query s.input_text = Except.ok corr →
      (corr.lookup "doc_subtype" = none ∨ corr.lookup "doc_subtype" = some "") →
      (apply_rag_corrections query s).doc_subtype = s.doc_subtype) := by
  by_cases hin : s.input_text = ""
  · unfold apply_rag_corrections
    simp [hin]
  · cases hq : query s.input_text with
    | error e =>
      unfold apply_rag_corrections
      simp [hin, hq]
    | ok corr =>
      by_cases hnil : corr = []
      · unfold apply_rag_corrections
        simp [hin, hq, hnil]
      · have hrw : apply_rag_corrections query s =
            (let s1 :=
              match corr.lookup "doc_type" with
              | some v => if v ≠ "" then { s with doc_type := v } else s
              | none => s
            match corr.lookup "doc_subtype" with
            | some v => if v ≠ "" then { s1 with doc_subtype := v } else s1
            | none => s1) := by
          unfold apply_rag_corrections
          simp [hin, hq, hnil]
        rw [hrw]
        refine ⟨?_, ?_, ?_, ?_, ?_, ?_, ?_⟩
        · cases corr.lookup "doc_type" <;> cases corr.lookup "doc_subtype" <;>
            dsimp <;> (repeat' split) <;> rfl
        · cases corr.lookup "doc_type" <;> cases corr.lookup "doc_subtype" <;>
            dsimp <;> (repeat' split) <;> rfl
        · cases corr.lookup "doc_type" <;> cases corr.lookup "doc_subtype" <;>
            dsimp <;> (repeat' split) <;> rfl
        · cases corr.lookup "doc_type" <;> cases corr.lookup "doc_subtype" <;>
            dsimp <;> (repeat' split) <;> rfl
        · cases corr.lookup "doc_type" <;> cases corr.lookup "doc_subtype" <;>
            dsimp <;> (repeat' split) <;> rfl
        · intro c hc hv
          injection hc with h
          subst h
          cases hdt : corr.lookup "doc_type" with
          | none =>
            simp only [hdt]
            cases corr.lookup "doc_subtype" <;> dsimp <;> (repeat' split) <;> rfl
          | some w =>
            have hw : w = "" := by
              rcases hv with h | h
              · rw [hdt] at h
                cases h
              · rw [hdt] at h
                injection h
            subst hw
            simp only [hdt, ne_eq, not_true_eq_false, if_false, ite_false]
            cases corr.lookup "doc_subtype" <;> dsimp <;> (repeat' split) <;> rfl
        · intro c hc hv
          injection hc with h
          subst h
          cases hds : corr.lookup "doc_subtype" with
          | none =>
            simp only [hds]
            cases corr.lookup "doc_type" <;> dsimp <;> (repeat' split) <;> rfl
          | some v =>
            have hv0 : v = "" := by
              rcases hv with h | h
              · rw [hds] at h
                cases h
              · rw [hds] at h
                injection h
            subst hv0
            simp only [hds, ne_eq, not_true_eq_false, if_false, ite_false]
            cases corr.lookup "doc_type" <;> dsimp <;> (repeat' split) <;> rfl

theorem c10_rag_frame_witness :
    apply_rag_corrections
      (fun _ => Except.ok [("doc_type", ""), ("provider_name", "Evil"), ("doc_subtype", "Sub")])
      ⟨"txt", "dob", "pat", "prov", "Labs", "Quest", "note"⟩ =
    ⟨"txt", "dob", "pat", "prov", "Labs", "Sub", "note"⟩ ∧
    (apply_rag_corrections
      (fun _ => Except.ok [("doc_type", ""), ("provider_name", "Evil"), ("doc_subtype", "Sub")])
      ⟨"txt", "dob", "pat", "prov", "Labs", "Quest", "note"⟩).doc_type = "Labs" := by
  have h := c10_rag_frame
    (fun _ => Except.ok [("doc_type", ""), ("provider_name", "Evil"), ("doc_subtype", "Sub")])
    ⟨"txt", "dob", "pat", "prov", "Labs", "Quest", "note"⟩
  refine ⟨by decide, ?_⟩
  exact h.2.2.2.2.2.1 _ rfl (Or.inr (by decide))

/-! ### correction_store_rag.py: the RAG correction store

The sentence-transformer embedding backend is a parameter `embed` (the spec
boundary: same text always yields the same vector), Python's salted string
hash is a parameter `hash`, and the chroma collection is modelled at the
spec's boundary as a durable key-to-(vector, text, correction) store
with squared-L2 nearest-neighbour query. -/

structure CorrectionEntry where
  eid : String
  embedding : List ℚ
  document : String
  correction : Correction
deriving DecidableEq, Repr

abbrev CorrectionIndex := List CorrectionEntry

/-- Squared L2 distance between two embedding vectors (chroma's default
`l2` space). -/
def sqDist (u v : List ℚ) : ℚ := (u.zipWith (fun a b => (a - b) ^ 2) v).sum

/-- The id under which `add` stores an entry: `str(abs(hash(doc_text)))`. -/
def doc_id (hash : String → ℤ) (doc_text : String) : String :=
  toString (hash doc_text).natAbs

/-- `RAGCorrectionStore.add`: compute the embedding and store
(embedding, document, correction) under the content-derived id; an existing
entry with the same id is overwritten. -/
def store_add (embed : String → List ℚ) (hash : String → ℤ)
    (idx : CorrectionIndex) (doc_text : String) (correction : Correction) :
    CorrectionIndex :=
  if idx.any (fun x => x.eid == doc_id hash doc_text) then
    idx.map (fun x => if x.eid == doc_id hash doc_text then
      ⟨doc_id hash doc_text, embed doc_text, doc_text, correction⟩ else x)
  else idx ++ [⟨doc_id hash doc_text, embed doc_text, doc_text, correction⟩]

/-- Nearest stored entry by vector distance (the `top_k=1` chroma query);
ties keep the earliest entry. -/
def nearest (q : List ℚ) : CorrectionIndex → Option CorrectionEntry
  | [] => none
  | e :: rest =>
    some (rest.foldl
      (fun b x => if sqDist q x.embedding < sqDist q b.embedding then x else b) e)

/-- `RAGCorrectionStore.query`: embed the text, retrieve the nearest entry,
and return its correction when `distance < 1 - threshold`; otherwise (or on
an empty collection) return the empty correction. -/
def store_query (embed : String → List ℚ) (idx : CorrectionIndex)
    (doc_text : String) (threshold : ℚ) : Correction :=
  match nearest (embed doc_text) idx with
  | none => []
  | some e =>
    if sqDist (embed doc_text) e.embedding < 1 - threshold then e.correction
    else []

/-- The distance-to-similarity conversion implied by the code's comparison
`distance < (1 - threshold)`. -/
def similarity (d : ℚ) : ℚ := 1 - d

theorem sqDist_nonneg (u v : List ℚ) : 0 ≤ sqDist u v := by
  induction u generalizing v with
  | nil => simp [sqDist]
  | cons a u ih =>
    cases v with
    | nil => simp [sqDist]
    | cons b v =>
      have h := ih v
      simp only [sqDist, List.zipWith_cons_cons, List.sum_cons]
      have h2 : 0 ≤ (a - b) ^ 2 := sq_nonneg _
      unfold sqDist at h
      linarith

theorem sqDist_self (v : List ℚ) : sqDist v v = 0 := by
  induction v with
  | nil => rfl
  | cons a u ih =>
    simp only [sqDist, List.zipWith_cons_cons, List.sum_cons] at *
    rw [ih]
    ring

theorem nearest_foldl_spec (q : List ℚ) (l : CorrectionIndex)
    (b : CorrectionEntry) :
    (l.foldl (fun b x =>
        if sqDist q x.embedding < sqDist q b.embedding then x else b) b = b ∨
      l.foldl (fun b x =>
        if sqDist q x.embedding < sqDist q b.embedding then x else b) b ∈ l) ∧
    sqDist q (l.foldl (fun b x =>
        if sqDist q x.embedding < sqDist q b.embedding then x else b) b).embedding
      ≤ sqDist q b.embedding ∧
    ∀ r ∈ l, sqDist q (l.foldl (fun b x =>
        if sqDist q x.embedding < sqDist q b.embedding then x else b) b).embedding
      ≤ sqDist q r.embedding := by
  induction l generalizing b with
  | nil => exact ⟨Or.inl rfl, le_refl _, by simp⟩
  | cons x xs ih =>
    simp only [List.foldl_cons]
    by_cases hx : sqDist q x.embedding < sqDist q b.embedding
    · rw [if_pos hx]
      obtain ⟨hmem, hle, hall⟩ := ih x
      refine ⟨?_, ?_, ?_⟩
      · rcases hmem with h | h
        · exact Or.inr (by simp [h])
        · exact Or.inr (by simp [h])
      · exact le_trans hle (le_of_lt hx)
      · intro r hr
        rcases List.mem_cons.mp hr with h | h
        · subst h
          exact hle
        · exact hall r h
    · rw [if_neg hx]
      obtain ⟨hmem, hle, hall⟩ := ih b
      refine ⟨?_, ?_, ?_⟩
      · rcases hmem with h | h
        · exact Or.inl h
        · exact Or.inr (by simp [h])
      · exact hle
      · intro r hr
        rcases List.mem_cons.mp hr with h | h
        · subst h
          exact le_trans hle (le_of_not_lt hx)
        · exact hall r h

theorem nearest_cons (q : List ℚ) (x : CorrectionEntry) (xs : CorrectionIndex) :
    nearest q (x :: xs) =
      some (xs.foldl
        (fun b y => if sqDist q y.embedding < sqDist q b.embedding then y else b)
        x) := rfl

theorem nearest_min (q : List ℚ) (idx : CorrectionIndex) (e : CorrectionEntry)
    (h : nearest q idx = some e) :
    e ∈ idx ∧ ∀ r ∈ idx, sqDist q e.embedding ≤ sqDist q r.embedding := by
  cases idx with
  | nil => cases h
  | cons x xs =>
    rw [nearest_cons] at h
    injection h with h
    obtain ⟨hmem, hle, hall⟩ := nearest_foldl_spec q xs x
    rw [h] at hmem hle hall
    constructor
    · rcases hmem with h2 | h2
      · simp [← h2]
      · simp [h2]
    · intro r hr
      rcases List.mem_cons.mp hr with h2 | h2
      · subst h2
        exact hle
      · exact hall r h2

/-- Embedding function used by the C4 boundary counterexample. -/
def cexEmbed : String → List ℚ := fun s => if s = "note" then [1 / 2] else [0]

/-- The C4 index: one stored entry for "note". -/
def cexIndex : CorrectionIndex :=
  store_add cexEmbed (fun _ => 0) [] "note" [("doc_type", "Labs")]

/-- The claim's boundary condition (return the entry's overrideFields iff
similarity is at least the threshold) is false of the code: `query` uses the
strict comparison `distance < 1 - threshold`, i.e. `similarity > threshold`.
At `threshold = 3/4` with the nearest entry at distance exactly `1/4`
(similarity exactly `3/4`, which is `≥` the threshold), the claim requires
the stored overrideFields but the code returns empty. -/
theorem c4_threshold_boundary_counterexample :
    nearest (cexEmbed "q") cexIndex =
      some ⟨"0", [1 / 2], "note", [("doc_type", "Labs")]⟩ ∧
    (3 : ℚ) / 4 ≤ similarity (sqDist (cexEmbed "q") [1 / 2]) ∧
    store_query cexEmbed cexIndex "q" (3 / 4) = [] := by
  have hemb : cexEmbed "q" = [0] := rfl
  have hidx : cexIndex = [⟨"0", [1 / 2], "note", [("doc_type", "Labs")]⟩] := rfl
  have hd : sqDist (cexEmbed "q") [1 / 2] = 1 / 4 := by
    rw [hemb]
    show ((0 : ℚ) - 1 / 2) ^ 2 + 0 = 1 / 4
    norm_num
  refine ⟨rfl, by rw [hd]; norm_num [similarity], ?_⟩
  show store_query cexEmbed cexIndex "q" (3 / 4) = []
  rw [store_query, hidx, nearest_cons]
  simp only [List.foldl_nil]
  rw [if_neg]
  rw [hd]
  norm_num

/-- C4 (amended): `query` embeds the text, retrieves a nearest stored entry
by vector distance (a true minimiser over the index), converts distance to
similarity by the monotone map taking d to 1 - d, and returns that entry's
overrideFields if and only if similarity is STRICTLY greater than the
threshold (the code compares `distance < 1 - threshold`); on an empty index
it returns empty. -/
theorem c4_query_similarity_threshold (embed : String → List ℚ)
    (idx : CorrectionIndex) (doc_text : String) (θ : ℚ) (e : CorrectionEntry)
    (h : nearest (embed doc_text) idx = some e) :
    (store_query embed idx doc_text θ =
      if θ < similarity (sqDist (embed doc_text) e.embedding) then e.correction
      else []) ∧
    (e ∈ idx ∧ ∀ r ∈ idx,
      sqDist (embed doc_text) e.embedding ≤ sqDist (embed doc_text) r.embedding) ∧
    (∀ d₁ d₂ : ℚ, d₁ < d₂ → similarity d₂ < similarity d₁) ∧
    store_query embed [] doc_text θ = [] := by
  refine ⟨?_, nearest_min _ _ _ h, ?_, rfl⟩
  · rw [store_query, h]
    show (if sqDist (embed doc_text) e.embedding < 1 - θ then e.correction else []) =
      if θ < similarity (sqDist (embed doc_text) e.embedding) then e.correction else []
    have hiff : sqDist (embed doc_text) e.embedding < 1 - θ ↔
        θ < similarity (sqDist (embed doc_text) e.embedding) := by
      unfold similarity
      constructor <;> intro <;> linarith
    by_cases hc : sqDist (embed doc_text) e.embedding < 1 - θ
    · rw [if_pos hc, if_pos (hiff.mp hc)]
    · rw [if_neg hc, if_neg (fun hx => hc (hiff.mpr hx))]
  · intro d₁ d₂ hd
    unfold similarity
    linarith

theorem c4_query_similarity_threshold_witness :
    store_query (fun _ => [0]) [⟨"7", [0], "note", [("doc_type", "Labs")]⟩]
      "note" (1 / 2) = [("doc_type", "Labs")] := by
  have h := c4_query_similarity_threshold (fun _ => [0])
    [⟨"7", [0], "note", [("doc_type", "Labs")]⟩] "note" (1 / 2)
    ⟨"7", [0], "note", [("doc_type", "Labs")]⟩ rfl
  rw [h.1, if_pos]
  show (1 : ℚ) / 2 < similarity (sqDist [0] [0])
  rw [sqDist_self]
  norm_num [similarity]

theorem nearest_of_self_zero (q : List ℚ) (idx : CorrectionIndex)
    (e : CorrectionEntry) (he : sqDist q e.embedding = 0) (hmem : e ∈ idx)
    (hall : ∀ r ∈ idx, r = e ∨ 0 < sqDist q r.embedding) :
    nearest q idx = some e := by
  cases idx with
  | nil => cases hmem
  | cons x xs =>
    rw [nearest_cons]
    congr 1
    have main : ∀ (l : CorrectionIndex) (b : CorrectionEntry),
        (∀ r ∈ l, r = e ∨ 0 < sqDist q r.embedding) →
        (b = e ∨ e ∈ l) → (b = e ∨ 0 < sqDist q b.embedding) →
        l.foldl (fun b x =>
          if sqDist q x.embedding < sqDist q b.embedding then x else b) b = e := by
      intro l
      induction l with
      | nil =>
        intro b _ hbe _
        rcases hbe with h | h
        · simpa using h
        · cases h
      | cons y ys ih =>
        intro b hal hbe hbp
        simp only [List.foldl_cons]
        by_cases hy : y = e
        · subst hy
          rcases hbp with hb | hb
          · subst hb
            rw [if_neg (by rw [he]; exact lt_irrefl 0)]
            exact ih _ (fun r hr => hal r (by simp [hr])) (Or.inl rfl) (Or.inl rfl)
          · rw [if_pos (by rw [he]; exact hb)]
            exact ih _ (fun r hr => hal r (by simp [hr])) (Or.inl rfl) (Or.inl rfl)
        · have hyp : 0 < sqDist q y.embedding := by
            rcases hal y (by simp) with h | h
            · exact absurd h hy
            · exact h
          have hbe2 : (if sqDist q y.embedding < sqDist q b.embedding then y else b) = e ∨
              e ∈ ys := by
            rcases hbe with hb | hb
            · subst hb
              rw [if_neg (by rw [he]; exact not_lt.mpr (le_of_lt hyp))]
              exact Or.inl rfl
            · rcases List.mem_cons.mp hb with h | h
              · exact absurd h.symm hy
              · exact Or.inr h
          have hbp2 : (if sqDist q y.embedding < sqDist q b.embedding then y else b) = e ∨
              0 < sqDist q (if sqDist q y.embedding < sqDist q b.embedding then y
                else b).embedding := by
            by_cases hc : sqDist q y.embedding < sqDist q b.embedding
            · rw [if_pos hc]
              exact Or.inr hyp
            · rw [if_neg hc]
              exact hbp
          exact ih _ (fun r hr => hal r (by simp [hr])) hbe2 hbp2
    exact main xs x (fun r hr => hall r (by simp [hr]))
      (by
        rcases hall x (by simp) with h | h
        · exact Or.inl h
        · rcases List.mem_cons.mp hmem with h2 | h2
          · exact Or.inl h2.symm
          · exact Or.inr h2)
      (hall x (by simp))

/-- C5: `add` stores under an id derived deterministically from the document
text, so a second `add` with the same text overwrites the first (last write
wins); and an `add` followed by a `query` with the same text at any
threshold below 1 returns exactly the stored overrideFields, provided every
other stored entry sits at positive distance from the text's embedding. -/
theorem c5_add_overwrite_and_precision (embed : String → List ℚ)
    (hash : String → ℤ) (idx : CorrectionIndex) (t : String)
    (c₁ c₂ : Correction) (θ : ℚ) (hθ : θ < 1)
    (hpos : ∀ e ∈ idx, e.eid ≠ doc_id hash t → 0 < sqDist (embed t) e.embedding) :
    store_add embed hash (store_add embed hash idx t c₁) t c₂ =
      store_add embed hash idx t c₂ ∧
    store_query embed (store_add embed hash idx t c₂) t θ = c₂ := by
  constructor
  · unfold store_add
    by_cases hany : idx.any (fun x => x.eid == doc_id hash t) = true
    · rw [if_pos hany]
      have hany2 : (idx.map (fun x =>
          if x.eid == doc_id hash t then
            (⟨doc_id hash t, embed t, t, c₁⟩ : CorrectionEntry) else x)).any
          (fun x => x.eid == doc_id hash t) = true := by
        rw [List.any_eq_true] at hany ⊢
        obtain ⟨x, hx, hxe⟩ := hany
        refine ⟨if x.eid == doc_id hash t then ⟨doc_id hash t, embed t, t, c₁⟩ else x,
          List.mem_map_of_mem _ hx, ?_⟩
        rw [if_pos hxe]
        simp
      rw [if_pos hany2, if_pos hany, List.map_map]
      apply List.map_congr_left
      intro x _
      by_cases hx : x.eid = doc_id hash t
      · simp [Function.comp, hx]
      · simp [Function.comp, hx]
    · rw [if_neg hany]
      have hany2 : ((idx ++ [(⟨doc_id hash t, embed t, t, c₁⟩ : CorrectionEntry)]).any
          (fun x => x.eid == doc_id hash t)) = true := by
        rw [List.any_eq_true]
        exact ⟨⟨doc_id hash t, embed t, t, c₁⟩, by simp, by simp⟩
      rw [if_pos hany2, if_neg hany, List.map_append]
      have hany' : idx.any (fun x => x.eid == doc_id hash t) = false :=
        Bool.not_eq_true _ |>.mp hany
      rw [List.any_eq_false] at hany'
      have hmapid : idx.map (fun x =>
          if x.eid == doc_id hash t then
            (⟨doc_id hash t, embed t, t, c₂⟩ : CorrectionEntry) else x) = idx := by
        conv_rhs => rw [← List.map_id idx]
        apply List.map_congr_left
        intro x hx
        rw [if_neg (hany' x hx), id]
      rw [hmapid]
      have hone : List.map (fun x =>
          if x.eid == doc_id hash t then
            (⟨doc_id hash t, embed t, t, c₂⟩ : CorrectionEntry) else x)
          [(⟨doc_id hash t, embed t, t, c₁⟩ : CorrectionEntry)] =
          [(⟨doc_id hash t, embed t, t, c₂⟩ : CorrectionEntry)] := by
        simp
      rw [hone]
  · have hz : sqDist (embed t) (embed t) = 0 := sqDist_self _
    have hnear : nearest (embed t) (store_add embed hash idx t c₂) =
        some ⟨doc_id hash t, embed t, t, c₂⟩ := by
      apply nearest_of_self_zero _ _ _ hz
      · unfold store_add
        by_cases hany : idx.any (fun x => x.eid == doc_id hash t) = true
        · rw [if_pos hany]
          rw [List.any_eq_true] at hany
          obtain ⟨x, hx, hxe⟩ := hany
          refine List.mem_map.mpr ⟨x, hx, ?_⟩
          rw [if_pos hxe]
        · rw [if_neg hany]
          simp
      · intro r hr
        unfold store_add at hr
        by_cases hany : idx.any (fun x => x.eid == doc_id hash t) = true
        · rw [if_pos hany] at hr
          obtain ⟨x, hx, hxr⟩ := List.mem_map.mp hr
          by_cases hxe : x.eid == doc_id hash t
          · rw [if_pos hxe] at hxr
            exact Or.inl hxr.symm
          · rw [if_neg hxe] at hxr
            subst hxr
            exact Or.inr (hpos x hx (by simpa using hxe))
        · rw [if_neg hany] at hr
          have hany' : idx.any (fun x => x.eid == doc_id hash t) = false :=
            Bool.not_eq_true _ |>.mp hany
          rw [List.any_eq_false] at hany'
          rcases List.mem_append.mp hr with h | h
          · exact Or.inr (hpos r h (by simpa using hany' r h))
          · simp only [List.mem_singleton] at h
            exact Or.inl h
    rw [store_query, hnear]
    show (if sqDist (embed t) (embed t) < 1 - θ then c₂ else []) = c₂
    rw [hz, if_pos (by linarith)]

theorem c5_add_overwrite_and_precision_witness :
    store_add (fun s => [(s.length : ℚ)]) (fun s => (s.length : ℤ))
      (store_add (fun s => [(s.length : ℚ)]) (fun s => (s.length : ℤ))
        [] "Patient A note" [("doc_type", "Radiology")])
      "Patient A note" [("doc_type", "Labs")] =
      store_add (fun s => [(s.length : ℚ)]) (fun s => (s.length : ℤ))
        [] "Patient A note" [("doc_type", "Labs")] ∧
    store_query (fun s => [(s.length : ℚ)])
      (store_add (fun s => [(s.length : ℚ)]) (fun s => (s.length : ℤ))
        [] "Patient A note" [("doc_type", "Labs")])
      "Patient A note" (99 / 100) = [("doc_type", "Labs")] :=
  c5_add_overwrite_and_precision (fun s => [(s.length : ℚ)])
    (fun s => (s.length : ℤ)) [] "Patient A note"
    [("doc_type", "Radiology")] [("doc_type", "Labs")] (99 / 100)
    (by norm_num) (by simp)

/-! ### talkehr_agent.py: TalkEHRBot.select_patient best-candidate loop (C6)

The multi-result branch of `select_patient` scores each dropdown row with
`strong_enough_match`, parses an optional `MRN:<n>` identifier (0 when
absent), and keeps the best row under `score > best_score or
(abs(score - best_score) < 1e-9 and mrn < chosen_mrn)`.  A row whose
parsing or scoring raises is skipped (the per-row try/except). -/

structure PatientRow where
  name : String
  mrn : Option ℕ
deriving DecidableEq, Repr

structure BestSel where
  best_idx : Option ℕ
  best_score : ℚ
  chosen_name : String
  chosen_mrn : ℕ
deriving DecidableEq, Repr

/-- One iteration of the `select_patient` candidate loop. -/
def select_step (F : FuzzRatios) (target : String) (acc : BestSel)
    (p : ℕ × PatientRow) : BestSel :=
  match strong_enough_match F target p.2.name (7 / 10) (3 / 5) 80 with
  | none => acc
  | some r =>
    if r.1 ∧ (acc.best_score < r.2.1 ∨
        (|r.2.1 - acc.best_score| < 1 / 1000000000 ∧
          p.2.mrn.getD 0 < acc.chosen_mrn)) then
      ⟨some p.1, r.2.1, p.2.name, p.2.mrn.getD 0⟩
    else acc

/-- The `select_patient` candidate loop over the enumerated rows, starting
from `best_idx=None, best_score=-1.0, chosen_mrn=0`. -/
def select_patient_best (F : FuzzRatios) (target : String)
    (rows : List PatientRow) : BestSel :=
  rows.enum.foldl (select_step F target) ⟨none, -1, "", 0⟩

/-- Every score reported by `strong_enough_match` is an integer ratio over
100 (fuzzywuzzy scores are ints divided by 100). -/
theorem strong_score_shape (F : FuzzRatios) (t c : String) (ok : Bool)
    (score : ℚ) (reason : String)
    (h : strong_enough_match F t c (7 / 10) (3 / 5) 80 =
      some (ok, score, reason)) :
    ∃ k : ℕ, score = (k : ℚ) / 100 := by
  unfold strong_enough_match at h
  cases hft : first_name_only t with
  | none => rw [hft] at h; cases h
  | some ft =>
    cases hfc : first_name_only c with
    | none => rw [hft, hfc] at h; cases h
    | some fc =>
      rw [hft, hfc] at h
      simp only at h
      have hs := congrArg (fun x : Bool × ℚ × String => x.2.1) (Option.some.inj h)
      simp only at hs
      split_ifs at hs
      · exact ⟨_, hs.symm⟩
      · exact ⟨_, hs.symm⟩
      · rcases max_choice ((F.token_set_ratio (normalize_name t) (normalize_name c) : ℚ) / 100)
          ((F.part_ratio (normalize_name t) (normalize_name c) : ℚ) / 100) with hm | hm <;>
          rw [hm] at hs
        · exact ⟨_, hs.symm⟩
        · exact ⟨_, hs.symm⟩
      · exact ⟨_, hs.symm⟩
      · exact ⟨_, hs.symm⟩

theorem score_shape_nonneg (s : ℚ) (h : ∃ k : ℕ, s = (k : ℚ) / 100) : 0 ≤ s := by
  obtain ⟨k, rfl⟩ := h
  positivity

/-- Two integer-ratio scores within 1e-9 of each other are equal. -/
theorem score_tie_eq (s₁ s₂ : ℚ) (h1 : ∃ k : ℕ, s₁ = (k : ℚ) / 100)
    (h2 : ∃ k : ℕ, s₂ = (k : ℚ) / 100)
    (h : |s₁ - s₂| < 1 / 1000000000) : s₁ = s₂ := by
  obtain ⟨k, rfl⟩ := h1
  obtain ⟨j, rfl⟩ := h2
  by_contra hne
  have hkj : k ≠ j := fun he => hne (by rw [he])
  have hint : (1 : ℚ) ≤ |(k : ℚ) - (j : ℚ)| := by
    have : ((k : ℤ) : ℚ) - ((j : ℤ) : ℚ) = (((k : ℤ) - (j : ℤ) : ℤ) : ℚ) := by
      push_cast
      ring
    have hz : (k : ℤ) - (j : ℤ) ≠ 0 := by
      intro hc
      exact hkj (by omega)
    have h1le : (1 : ℤ) ≤ |(k : ℤ) - (j : ℤ)| := Int.one_le_abs hz
    calc (1 : ℚ) = ((1 : ℤ) : ℚ) := by norm_num
      _ ≤ ((|(k : ℤ) - (j : ℤ)| : ℤ) : ℚ) := by exact_mod_cast h1le
      _ = |(((k : ℤ) - (j : ℤ) : ℤ) : ℚ)| := by
          rw [Int.cast_abs]
      _ = |(k : ℚ) - (j : ℚ)| := by
          push_cast
          ring_nf
  have habs : |(k : ℚ) / 100 - (j : ℚ) / 100| = |(k : ℚ) - (j : ℚ)| / 100 := by
    rw [div_sub_div_same, abs_div]
    norm_num
  rw [habs] at h
  have : (1 : ℚ) / 100 ≤ |(k : ℚ) - (j : ℚ)| / 100 := by
    apply div_le_div_of_nonneg_right hint
    norm_num
  linarith

theorem select_step_none (F : FuzzRatios) (target : String) (acc : BestSel)
    (p : ℕ × PatientRow)
    (h : strong_enough_match F target p.2.name (7 / 10) (3 / 5) 80 = none) :
    select_step F target acc p = acc := by
  unfold select_step
  rw [h]

theorem select_step_matched (F : FuzzRatios) (target : String) (acc : BestSel)
    (p : ℕ × PatientRow) (ok : Bool) (sc : ℚ) (rs : String)
    (h : strong_enough_match F target p.2.name (7 / 10) (3 / 5) 80 =
      some (ok, sc, rs)) :
    select_step F target acc p =
      if ok = true ∧ (acc.best_score < sc ∨
          (|sc - acc.best_score| < 1 / 1000000000 ∧
            p.2.mrn.getD 0 < acc.chosen_mrn)) then
        ⟨some p.1, sc, p.2.name, p.2.mrn.getD 0⟩
      else acc := by
  unfold select_step
  rw [h]

/-- Invariant of the `select_patient` fold: the result is the accumulator or
the data of some matched row, the best score never decreases, it dominates
every matched score in the list, and it keeps the integer-ratio shape. -/
theorem select_loop_spec (F : FuzzRatios) (target : String)
    (l : List (ℕ × PatientRow)) (acc : BestSel)
    (hshape : acc.best_score = -1 ∨ ∃ k : ℕ, acc.best_score = (k : ℚ) / 100) :
    (l.foldl (select_step F target) acc = acc ∨
      ∃ p ∈ l, ∃ reason,
        strong_enough_match F target p.2.name (7 / 10) (3 / 5) 80 =
          some (true, (l.foldl (select_step F target) acc).best_score, reason) ∧
        (l.foldl (select_step F target) acc).best_idx = some p.1 ∧
        (l.foldl (select_step F target) acc).chosen_name = p.2.name ∧
        (l.foldl (select_step F target) acc).chosen_mrn = p.2.mrn.getD 0) ∧
    acc.best_score ≤ (l.foldl (select_step F target) acc).best_score ∧
    (∀ p ∈ l, ∀ score : ℚ, ∀ reason : String,
      strong_enough_match F target p.2.name (7 / 10) (3 / 5) 80 =
        some (true, score, reason) →
      score ≤ (l.foldl (select_step F target) acc).best_score) ∧
    ((l.foldl (select_step F target) acc).best_score = -1 ∨
      ∃ k : ℕ, (l.foldl (select_step F target) acc).best_score = (k : ℚ) / 100) := by
  induction l generalizing acc with
  | nil =>
    refine ⟨Or.inl rfl, le_refl _, ?_, hshape⟩
    intro p hp
    cases hp
  | cons q rest ih =>
    simp only [List.foldl_cons]
    have key : (select_step F target acc q = acc ∨
        (∃ reason, strong_enough_match F target q.2.name (7 / 10) (3 / 5) 80 =
          some (true, (select_step F target acc q).best_score, reason) ∧
          (select_step F target acc q).best_idx = some q.1 ∧
          (select_step F target acc q).chosen_name = q.2.name ∧
          (select_step F target acc q).chosen_mrn = q.2.mrn.getD 0)) ∧
        acc.best_score ≤ (select_step F target acc q).best_score ∧
        (∀ score : ℚ, ∀ reason : String,
          strong_enough_match F target q.2.name (7 / 10) (3 / 5) 80 =
            some (true, score, reason) →
          score ≤ (select_step F target acc q).best_score ∨
            (select_step F target acc q).best_score = acc.best_score ∧
              score ≤ acc.best_score) ∧
        ((select_step F target acc q).best_score = -1 ∨
          ∃ k : ℕ, (select_step F target acc q).best_score = (k : ℚ) / 100) := by
      cases hm : strong_enough_match F target q.2.name (7 / 10) (3 / 5) 80 with
      | none =>
        rw [select_step_none F target acc q hm]
        refine ⟨Or.inl rfl, le_refl _, ?_, hshape⟩
        intro score reason hmm
        exact Option.noConfusion hmm
      | some r =>
        obtain ⟨ok, sc, rs⟩ := r
        rw [select_step_matched F target acc q ok sc rs hm]
        have hscsh : ∃ k : ℕ, sc = (k : ℚ) / 100 :=
          strong_score_shape F target q.2.name ok sc rs hm
        by_cases hc : ok = true ∧ (acc.best_score < sc ∨
            (|sc - acc.best_score| < 1 / 1000000000 ∧
              q.2.mrn.getD 0 < acc.chosen_mrn))
        · rw [if_pos hc]
          have hge : acc.best_score ≤ sc := by
            rcases hc.2 with h | h
            · exact le_of_lt h
            · rcases hshape with ha | ha
              · rw [ha]
                exact le_trans (by norm_num) (score_shape_nonneg _ hscsh)
              · exact le_of_eq (score_tie_eq sc acc.best_score hscsh ha h.1).symm
          refine ⟨Or.inr ⟨rs, ?_, rfl, rfl, rfl⟩, hge, ?_, Or.inr hscsh⟩
          · rw [hc.1]
          · intro score reason hmm
            injection hmm with hmm
            exact Or.inl (le_of_eq (congrArg (fun x : Bool × ℚ × String => x.2.1) hmm).symm)
        · rw [if_neg hc]
          refine ⟨Or.inl rfl, le_refl _, ?_, hshape⟩
          intro score reason hmm
          injection hmm with hmm
          have hok : ok = true := (congrArg (fun x : Bool × ℚ × String => x.1) hmm)
          have hsc : sc = score := (congrArg (fun x : Bool × ℚ × String => x.2.1) hmm)
          have hnc : ¬(acc.best_score < sc ∨
              (|sc - acc.best_score| < 1 / 1000000000 ∧
                q.2.mrn.getD 0 < acc.chosen_mrn)) := fun hx => hc ⟨hok, hx⟩
          have := not_lt.mp (not_or.mp hnc).1
          exact Or.inr ⟨rfl, by rw [← hsc]; exact this⟩
    obtain ⟨kA, kB, kC, kD⟩ := key
    obtain ⟨ihA, ihB, ihC, ihD⟩ := ih (select_step F target acc q) kD
    refine ⟨?_, le_trans kB ihB, ?_, ihD⟩
    · rcases ihA with hA | hA
      · rcases kA with hs | hs
        · exact Or.inl (by rw [hA, hs])
        · obtain ⟨reason, h1, h2, h3, h4⟩ := hs
          exact Or.inr ⟨q, by simp, reason, by rw [hA]; exact h1,
            by rw [hA]; exact h2, by rw [hA]; exact h3, by rw [hA]; exact h4⟩
      · obtain ⟨p, hp, reason, h1, h2, h3, h4⟩ := hA
        exact Or.inr ⟨p, by simp [hp], reason, h1, h2, h3, h4⟩
    · intro p hp score reason hmatch
      rcases List.mem_cons.mp hp with hp | hp
      · rw [hp] at hmatch
        rcases kC score reason hmatch with h | h
        · exact le_trans h ihB
        · exact le_trans h.2 (le_trans (le_of_eq h.1.symm) ihB)
      · exact ihC p hp score reason hmatch

theorem snd_mem_of_mem_enum {α : Type} {p : ℕ × α} {l : List α}
    (h : p ∈ l.enum) : p.2 ∈ l := by
  have := List.mem_map_of_mem Prod.snd h
  rwa [List.enum_map_snd] at this

/-- C6: best-candidate selection in `select_patient`: (a) any selected
candidate is a matching row whose score is maximal among all matching rows;
(a0) nothing is selected only when no row matches; (b) with identical scores
and supplied identifiers 5 and 3 the row with identifier 3 is selected in
either input order; (c) with identical scores and no identifiers the first
row in input order is kept. -/
theorem c6_best_candidate_selection (F : FuzzRatios) (target : String)
    (rows : List PatientRow) :
    ((select_patient_best F target rows).best_idx.isSome = true →
      ∃ r ∈ rows, ∃ reason,
        strong_enough_match F target r.name (7 / 10) (3 / 5) 80 =
          some (true, (select_patient_best F target rows).best_score, reason) ∧
        (select_patient_best F target rows).chosen_name = r.name ∧
        (select_patient_best F target rows).chosen_mrn = r.mrn.getD 0 ∧
        ∀ r' ∈ rows, ∀ score : ℚ, ∀ rs' : String,
          strong_enough_match F target r'.name (7 / 10) (3 / 5) 80 =
            some (true, score, rs') →
          score ≤ (select_patient_best F target rows).best_score) ∧
    ((select_patient_best F target rows).best_idx = none →
      ∀ r ∈ rows, ∀ score : ℚ, ∀ reason : String,
        strong_enough_match F target r.name (7 / 10) (3 / 5) 80 =
          some (true, score, reason) → False) ∧
    (∀ n₁ n₂ : String, ∀ s : ℚ, ∀ rs₁ rs₂ : String,
      strong_enough_match F target n₁ (7 / 10) (3 / 5) 80 = some (true, s, rs₁) →
      strong_enough_match F target n₂ (7 / 10) (3 / 5) 80 = some (true, s, rs₂) →
      select_patient_best F target [⟨n₁, some 5⟩, ⟨n₂, some 3⟩] =
        ⟨some 1, s, n₂, 3⟩ ∧
      select_patient_best F target [⟨n₁, some 3⟩, ⟨n₂, some 5⟩] =
        ⟨some 0, s, n₁, 3⟩) ∧
    (∀ n₁ n₂ : String, ∀ s : ℚ, ∀ rs₁ rs₂ : String,
      strong_enough_match F target n₁ (7 / 10) (3 / 5) 80 = some (true, s, rs₁) →
      strong_enough_match F target n₂ (7 / 10) (3 / 5) 80 = some (true, s, rs₂) →
      select_patient_best F target [⟨n₁, none⟩, ⟨n₂, none⟩] =
        ⟨some 0, s, n₁, 0⟩) := by
  obtain ⟨hA, hB, hC, _⟩ := select_loop_spec F target rows.enum
    ⟨none, -1, "", 0⟩ (Or.inl rfl)
  refine ⟨?_, ?_, ?_, ?_⟩
  · intro hsome
    rcases hA with hres | hres
    · rw [show select_patient_best F target rows =
          rows.enum.foldl (select_step F target) ⟨none, -1, "", 0⟩ from rfl,
        hres] at hsome
      cases hsome
    · obtain ⟨p, hp, reason, h1, h2, h3, h4⟩ := hres
      refine ⟨p.2, snd_mem_of_mem_enum hp, reason, h1, h3, h4, ?_⟩
      intro r' hr' score rs' hm'
      obtain ⟨q, hq, hq2⟩ := List.mem_map.mp
        (by rw [List.enum_map_snd]; exact hr' :
          r' ∈ rows.enum.map Prod.snd)
      exact hC q hq score rs' (by rw [hq2]; exact hm')
  · intro hnone r hr score reason hm
    have hres : select_patient_best F target rows = ⟨none, -1, "", 0⟩ := by
      rcases hA with hres | hres
      · exact hres
      · obtain ⟨p, _, _, _, h2, _⟩ := hres
        have hnone2 : (rows.enum.foldl (select_step F target)
            ⟨none, -1, "", 0⟩).best_idx = none := hnone
        rw [h2] at hnone2
        exact Option.noConfusion hnone2
    obtain ⟨q, hq, hq2⟩ := List.mem_map.mp
      (by rw [List.enum_map_snd]; exact hr : r ∈ rows.enum.map Prod.snd)
    have hle := hC q hq score reason (by rw [hq2]; exact hm)
    have hsh := strong_score_shape F target q.2.name true score reason
      (by rw [hq2]; exact hm)
    have h0 : (0 : ℚ) ≤ score := score_shape_nonneg score hsh
    rw [show (rows.enum.foldl (select_step F target) ⟨none, -1, "", 0⟩) =
        select_patient_best F target rows from rfl, hres] at hle
    simp only at hle
    linarith
  · intro n₁ n₂ s rs₁ rs₂ h₁ h₂
    have hs0 : (0 : ℚ) ≤ s :=
      score_shape_nonneg s (strong_score_shape F target n₁ true s rs₁ h₁)
    have htie : |s - s| < (1 : ℚ) / 1000000000 := by
      rw [sub_self, abs_zero]
      norm_num
    constructor
    · show ([(0, (⟨n₁, some 5⟩ : PatientRow)), (1, ⟨n₂, some 3⟩)].foldl
        (select_step F target) ⟨none, -1, "", 0⟩) = ⟨some 1, s, n₂, 3⟩
      rw [List.foldl_cons,
        select_step_matched F target ⟨none, -1, "", 0⟩ (0, ⟨n₁, some 5⟩)
          true s rs₁ h₁,
        if_pos ⟨rfl, Or.inl (by simpa using lt_of_lt_of_le (by norm_num) hs0)⟩,
        List.foldl_cons,
        select_step_matched F target _ (1, ⟨n₂, some 3⟩) true s rs₂ h₂,
        if_pos ⟨rfl, Or.inr ⟨htie, by norm_num⟩⟩,
        List.foldl_nil]
      rfl
    · show ([(0, (⟨n₁, some 3⟩ : PatientRow)), (1, ⟨n₂, some 5⟩)].foldl
        (select_step F target) ⟨none, -1, "", 0⟩) = ⟨some 0, s, n₁, 3⟩
      rw [List.foldl_cons,
        select_step_matched F target ⟨none, -1, "", 0⟩ (0, ⟨n₁, some 3⟩)
          true s rs₁ h₁,
        if_pos ⟨rfl, Or.inl (by simpa using lt_of_lt_of_le (by norm_num) hs0)⟩,
        List.foldl_cons,
        select_step_matched F target _ (1, ⟨n₂, some 5⟩) true s rs₂ h₂,
        if_neg (by
          rintro ⟨-, hor⟩
          rcases hor with h | h
          · exact absurd h (lt_irrefl s)
          · have h2 := h.2
            simp only [Option.getD_some] at h2
            omega),
        List.foldl_nil]
      rfl
  · intro n₁ n₂ s rs₁ rs₂ h₁ h₂
    have hs0 : (0 : ℚ) ≤ s :=
      score_shape_nonneg s (strong_score_shape F target n₁ true s rs₁ h₁)
    show ([(0, (⟨n₁, none⟩ : PatientRow)), (1, ⟨n₂, none⟩)].foldl
      (select_step F target) ⟨none, -1, "", 0⟩) = ⟨some 0, s, n₁, 0⟩
    rw [List.foldl_cons,
      select_step_matched F target ⟨none, -1, "", 0⟩ (0, ⟨n₁, none⟩)
        true s rs₁ h₁,
      if_pos ⟨rfl, Or.inl (by simpa using lt_of_lt_of_le (by norm_num) hs0)⟩,
      List.foldl_cons,
      select_step_matched F target _ (1, ⟨n₂, none⟩) true s rs₂ h₂,
      if_neg (by
        rintro ⟨-, hor⟩
        rcases hor with h | h
        · exact absurd h (lt_irrefl s)
        · have h2 := h.2
          simp only [Option.getD_none] at h2
          omega),
      List.foldl_nil]
    rfl

theorem c6_best_candidate_selection_witness :
    select_patient_best ⟨fun _ _ => 100, fun _ _ => 100⟩ "John Smith"
      [⟨"John Smith", some 5⟩, ⟨"John Smith", some 3⟩] =
      ⟨some 1, 1, "John Smith", 3⟩ := by
  have h := (c6_best_candidate_selection ⟨fun _ _ => 100, fun _ _ => 100⟩
    "John Smith" []).2.2.1 "John Smith" "John Smith" 1
    "token_set >= base_threshold" "token_set >= base_threshold"
  have hfn : first_name_only "John Smith" = some "john" := by decide
  have hm : strong_enough_match ⟨fun _ _ => 100, fun _ _ => 100⟩
      "John Smith" "John Smith" (7 / 10) (3 / 5) 80 =
      some (true, 1, "token_set >= base_threshold") := by
    norm_num [strong_enough_match, hfn]
  exact (h hm hm).1

/-! ### talkehr_agent.py: TalkEHRBot doc-type and sub-type selection (C8)

`select_doc_type` and `select_doc_sub_type` use the rapidfuzz ratios
(floats on the 0..100 scale), modelled as rational-valued parameters.
Clicking a chosen option is UI plumbing and modelled as succeeding. -/

structure RapidRatios where
  token_set_ratio : String → String → ℚ
  token_sort_ratio : String → String → ℚ

/-- `TalkEHRBot.normalize_name`: delete punctuation
(`re.sub(r"[^\w\s]", "", name)`), lower-case, split on whitespace, sort the
tokens (Python list.sort on strings is code-point lexicographic) and rejoin
with single spaces. -/
def bot_normalize_name (name : String) : String :=
  String.intercalate " "
    (((pySplit (lowerChars
        (name.data.filter (fun c => pyWordChar c || pySpace c)))).map
      (fun t => (⟨t⟩ : String))).mergeSort (fun a b => decide (a ≤ b)))

/-- The `select_doc_type` option loop: a candidate whose normalized text
contains or is contained in the normalized target is accepted immediately
(`Sum.inl`); otherwise the best `token_set_ratio` score is tracked with a
strict comparison (first候 wins ties), starting from `(None, 0)`. -/
def select_doc_type_go (F : RapidRatios) (target_norm : String)
    (best : Option String × ℚ) : List String → String ⊕ (Option String × ℚ)
  | [] => Sum.inr best
  | o :: rest =>
    if target_norm.data <:+: (bot_normalize_name o).data ∨
        (bot_normalize_name o).data <:+: target_norm.data then
      Sum.inl o
    else
      select_doc_type_go F target_norm
        (if best.2 < F.token_set_ratio target_norm (bot_normalize_name o) then
          (some o, F.token_set_ratio target_norm (bot_normalize_name o))
        else best) rest

/-- `TalkEHRBot.select_doc_type` (default threshold 80,
`accept_first_if_no_match=False`): substring/equality acceptance first, else
the top-scoring option if and only if its score reaches the threshold. -/
def select_doc_type (F : RapidRatios) (doc_type : String) (threshold : ℚ)
    (opts : List String) : Option String :=
  match select_doc_type_go F (bot_normalize_name doc_type) (none, 0) opts with
  | Sum.inl o => some o
  | Sum.inr (some best_text, best_score) =>
    if threshold ≤ best_score then some best_text else none
  | Sum.inr (none, _) => none

/-- rapidfuzz `process.extractOne(query, opts, scorer=token_sort_ratio)`
with no score cutoff: the first option attaining the maximal score. -/
def extract_one (F : RapidRatios) (q : String) :
    List String → Option (String × ℚ)
  | [] => none
  | o :: rest =>
    some (rest.foldl
      (fun b x => if b.2 < F.token_sort_ratio q x then (x, F.token_sort_ratio q x)
        else b)
      (o, F.token_sort_ratio q o))

/-- `TalkEHRBot.select_doc_sub_type`: `extractOne` over the option texts
with `token_sort_ratio` (no normalization, no threshold); empty dropdown
fails. -/
def select_doc_sub_type (F : RapidRatios) (doc_sub_type : String)
    (opts : List String) : Option String :=
  (extract_one F doc_sub_type opts).map (fun b => b.1)

/-- The claim is false of `select_doc_sub_type`: a single candidate whose
`token_sort_ratio` score is 10 — far below the default threshold of 80 — is
still accepted, because `extractOne` is called with no score cutoff. -/
theorem c8_no_threshold_counterexample :
    select_doc_sub_type ⟨fun _ _ => 10, fun _ _ => 10⟩ "Quest Diagnostics"
      ["Totally Different"] = some "Totally Different" ∧
    (10 : ℚ) < 80 := by
  constructor
  · rfl
  · norm_num

theorem extract_one_go_spec (F : RapidRatios) (q : String) (l : List String)
    (acc : String × ℚ) (hacc : acc.2 = F.token_sort_ratio q acc.1) :
    (l.foldl (fun b x =>
        if b.2 < F.token_sort_ratio q x then (x, F.token_sort_ratio q x) else b)
      acc).2 =
      F.token_sort_ratio q (l.foldl (fun b x =>
        if b.2 < F.token_sort_ratio q x then (x, F.token_sort_ratio q x) else b)
      acc).1 ∧
    acc.2 ≤ (l.foldl (fun b x =>
        if b.2 < F.token_sort_ratio q x then (x, F.token_sort_ratio q x) else b)
      acc).2 ∧
    (∀ x ∈ l, F.token_sort_ratio q x ≤ (l.foldl (fun b x =>
        if b.2 < F.token_sort_ratio q x then (x, F.token_sort_ratio q x) else b)
      acc).2) ∧
    ((l.foldl (fun b x =>
        if b.2 < F.token_sort_ratio q x then (x, F.token_sort_ratio q x) else b)
      acc) = acc ∨
      (l.foldl (fun b x =>
        if b.2 < F.token_sort_ratio q x then (x, F.token_sort_ratio q x) else b)
      acc).1 ∈ l) := by
  induction l generalizing acc with
  | nil => exact ⟨hacc, le_refl _, by simp, Or.inl rfl⟩
  | cons y ys ih =>
    simp only [List.foldl_cons]
    by_cases hy : acc.2 < F.token_sort_ratio q y
    · rw [if_pos hy]
      obtain ⟨i1, i2, i3, i4⟩ := ih (y, F.token_sort_ratio q y) rfl
      refine ⟨i1, le_trans (le_of_lt hy) i2, ?_, ?_⟩
      · intro x hx
        rcases List.mem_cons.mp hx with hx | hx
        · subst hx
          exact i2
        · exact i3 x hx
      · rcases i4 with h | h
        · exact Or.inr (by rw [h]; simp)
        · exact Or.inr (by simp [h])
    · rw [if_neg hy]
      obtain ⟨i1, i2, i3, i4⟩ := ih acc hacc
      refine ⟨i1, i2, ?_, ?_⟩
      · intro x hx
        rcases List.mem_cons.mp hx with hx | hx
        · subst hx
          exact le_trans (not_lt.mp hy) i2
        · exact i3 x hx
      · rcases i4 with h | h
        · exact Or.inl h
        · exact Or.inr (by simp [h])

theorem sdt_go_no_contain (F : RapidRatios) (tn : String) (l : List String)
    (best : Option String × ℚ)
    (hnc : ∀ o ∈ l, ¬(tn.data <:+: (bot_normalize_name o).data) ∧
      ¬((bot_normalize_name o).data <:+: tn.data)) :
    ∃ b : Option String × ℚ,
      select_doc_type_go F tn best l = Sum.inr b ∧
      best.2 ≤ b.2 ∧
      (∀ o ∈ l, F.token_set_ratio tn (bot_normalize_name o) ≤ b.2) ∧
      (b = best ∨ ∃ o ∈ l,
        b = (some o, F.token_set_ratio tn (bot_normalize_name o))) := by
  induction l generalizing best with
  | nil => exact ⟨best, rfl, le_refl _, by simp, Or.inl rfl⟩
  | cons y ys ih =>
    have hy := hnc y (by simp)
    have hstep : select_doc_type_go F tn best (y :: ys) =
        select_doc_type_go F tn
          (if best.2 < F.token_set_ratio tn (bot_normalize_name y) then
            (some y, F.token_set_ratio tn (bot_normalize_name y))
          else best) ys := by
      have hred : select_doc_type_go F tn best (y :: ys) =
          if tn.data <:+: (bot_normalize_name y).data ∨
              (bot_normalize_name y).data <:+: tn.data then Sum.inl y
          else select_doc_type_go F tn
            (if best.2 < F.token_set_ratio tn (bot_normalize_name y) then
              (some y, F.token_set_ratio tn (bot_normalize_name y))
            else best) ys := rfl
      rw [hred, if_neg (fun hx => hx.elim hy.1 hy.2)]
    obtain ⟨b, hb, h2, h3, h4⟩ := ih
      (if best.2 < F.token_set_ratio tn (bot_normalize_name y) then
        (some y, F.token_set_ratio tn (bot_normalize_name y))
      else best)
      (fun o ho => hnc o (by simp [ho]))
    refine ⟨b, by rw [hstep]; exact hb, ?_, ?_, ?_⟩
    · by_cases hc : best.2 < F.token_set_ratio tn (bot_normalize_name y)
      · rw [if_pos hc] at h2
        exact le_trans (le_of_lt hc) h2
      · rw [if_neg hc] at h2
        exact h2
    · intro o ho
      rcases List.mem_cons.mp ho with ho | ho
      · subst ho
        by_cases hc : best.2 < F.token_set_ratio tn (bot_normalize_name o)
        · rw [if_pos hc] at h2
          exact h2
        · rw [if_neg hc] at h2
          exact le_trans (not_lt.mp hc) h2
      · exact h3 o ho
    · by_cases hc : best.2 < F.token_set_ratio tn (bot_normalize_name y)
      · rw [if_pos hc] at h4
        rcases h4 with h | h
        · exact Or.inr ⟨y, by simp, h⟩
        · obtain ⟨o, ho, hb2⟩ := h
          exact Or.inr ⟨o, by simp [ho], hb2⟩
      · rw [if_neg hc] at h4
        rcases h4 with h | h
        · exact Or.inl h
        · obtain ⟨o, ho, hb2⟩ := h
          exact Or.inr ⟨o, by simp [ho], hb2⟩

/-- C8 (amended): the menu-option matcher modes.  `select_doc_sub_type`
never throws on an empty list, and otherwise accepts the top candidate by
`token_sort_ratio` (on the raw, un-normalized strings) UNCONDITIONALLY —
there is no threshold — with ties broken by input order.  `select_doc_type`
first accepts any candidate whose normalized text contains or is contained
in the normalized target, regardless of score; only otherwise does it rank
by set-overlap and accept the top candidate exactly when its score reaches
the threshold (default 80), ties broken by input order. -/
theorem c8_menu_matcher_amended (F : RapidRatios) :
    (∀ q : String, select_doc_sub_type F q [] = none) ∧
    (∀ q o : String, ∀ rest : List String, ∃ b,
      select_doc_sub_type F q (o :: rest) = some b ∧ b ∈ o :: rest ∧
      ∀ x ∈ o :: rest, F.token_sort_ratio q x ≤ F.token_sort_ratio q b) ∧
    (∀ q o₁ o₂ : String, F.token_sort_ratio q o₂ ≤ F.token_sort_ratio q o₁ →
      select_doc_sub_type F q [o₁, o₂] = some o₁) ∧
    (∀ t : String, ∀ θ : ℚ, ∀ o : String, ∀ rest : List String,
      ((bot_normalize_name t).data <:+: (bot_normalize_name o).data ∨
        (bot_normalize_name o).data <:+: (bot_normalize_name t).data) →
      select_doc_type F t θ (o :: rest) = some o) ∧
    (∀ t : String, ∀ θ : ℚ, ∀ opts : List String,
      (∀ o ∈ opts, ¬((bot_normalize_name t).data <:+: (bot_normalize_name o).data) ∧
        ¬((bot_normalize_name o).data <:+: (bot_normalize_name t).data)) →
      (∀ o, select_doc_type F t θ opts = some o →
        o ∈ opts ∧
        θ ≤ F.token_set_ratio (bot_normalize_name t) (bot_normalize_name o) ∧
        ∀ x ∈ opts,
          F.token_set_ratio (bot_normalize_name t) (bot_normalize_name x) ≤
            F.token_set_ratio (bot_normalize_name t) (bot_normalize_name o)) ∧
      ((∀ o ∈ opts,
          F.token_set_ratio (bot_normalize_name t) (bot_normalize_name o) < θ) →
        select_doc_type F t θ opts = none)) ∧
    (∀ t : String, ∀ θ : ℚ, ∀ o₁ o₂ : String,
      (¬((bot_normalize_name t).data <:+: (bot_normalize_name o₁).data) ∧
        ¬((bot_normalize_name o₁).data <:+: (bot_normalize_name t).data)) →
      (¬((bot_normalize_name t).data <:+: (bot_normalize_name o₂).data) ∧
        ¬((bot_normalize_name o₂).data <:+: (bot_normalize_name t).data)) →
      F.token_set_ratio (bot_normalize_name t) (bot_normalize_name o₂) ≤
        F.token_set_ratio (bot_normalize_name t) (bot_normalize_name o₁) →
      0 < F.token_set_ratio (bot_normalize_name t) (bot_normalize_name o₁) →
      θ ≤ F.token_set_ratio (bot_normalize_name t) (bot_normalize_name o₁) →
      select_doc_type F t θ [o₁, o₂] = some o₁) := by
  refine ⟨fun q => rfl, ?_, ?_, ?_, ?_, ?_⟩
  · intro q o rest
    obtain ⟨i1, i2, i3, i4⟩ := extract_one_go_spec F q rest (o, F.token_sort_ratio q o) rfl
    refine ⟨_, rfl, ?_, ?_⟩
    · rcases i4 with h | h
      · rw [h]
        simp
      · simp [h]
    · intro x hx
      rcases List.mem_cons.mp hx with hx | hx
      · subst hx
        rw [← i1]
        exact i2
      · rw [← i1]
        exact i3 x hx
  · intro q o₁ o₂ hle
    show (some ((if (o₁, F.token_sort_ratio q o₁).2 < F.token_sort_ratio q o₂ then
      (o₂, F.token_sort_ratio q o₂) else (o₁, F.token_sort_ratio q o₁)))).map
        (fun b => b.1) = some o₁
    rw [if_neg (not_lt.mpr hle)]
    rfl
  · intro t θ o rest h
    show (match (if (bot_normalize_name t).data <:+: (bot_normalize_name o).data ∨
        (bot_normalize_name o).data <:+: (bot_normalize_name t).data then Sum.inl o
      else select_doc_type_go F (bot_normalize_name t)
        (if ((none : Option String), (0 : ℚ)).2 <
            F.token_set_ratio (bot_normalize_name t) (bot_normalize_name o) then
          (some o, F.token_set_ratio (bot_normalize_name t) (bot_normalize_name o))
        else (none, 0)) rest : String ⊕ (Option String × ℚ)) with
      | Sum.inl o => some o
      | Sum.inr (some best_text, best_score) =>
        if θ ≤ best_score then some best_text else none
      | Sum.inr (none, _) => none) = some o
    rw [if_pos h]
  · intro t θ opts hnc
    obtain ⟨b, hb, h2, h3, h4⟩ := sdt_go_no_contain F (bot_normalize_name t)
      opts (none, 0) hnc
    constructor
    · intro o hsel
      unfold select_doc_type at hsel
      rw [hb] at hsel
      obtain ⟨bt, bs⟩ := b
      cases bt with
      | none => exact Option.noConfusion hsel
      | some bt =>
        simp only at hsel
        by_cases hθ : θ ≤ bs
        · rw [if_pos hθ] at hsel
          injection hsel with hsel
          subst hsel
          rcases h4 with h | h
          · exact Option.noConfusion (congrArg Prod.fst h)
          · obtain ⟨o', ho', he⟩ := h
            have hfst : o' = bt := by
              have := congrArg Prod.fst he
              simpa using this.symm
            have hsnd : bs =
                F.token_set_ratio (bot_normalize_name t) (bot_normalize_name bt) := by
              have := congrArg Prod.snd he
              rw [hfst] at this
              simpa using this
            subst hfst
            exact ⟨ho', by rw [← hsnd]; exact hθ,
              fun x hx => by rw [← hsnd]; exact h3 x hx⟩
        · rw [if_neg hθ] at hsel
          exact Option.noConfusion hsel
    · intro hbelow
      unfold select_doc_type
      rw [hb]
      obtain ⟨bt, bs⟩ := b
      cases bt with
      | none => rfl
      | some bt =>
        simp only
        rcases h4 with h | h
        · exact Option.noConfusion (congrArg Prod.fst h)
        · obtain ⟨o', ho', he⟩ := h
          have hsnd : bs =
              F.token_set_ratio (bot_normalize_name t) (bot_normalize_name o') := by
            have := congrArg Prod.snd he
            simpa using this
          rw [if_neg]
          rw [hsnd]
          exact not_le.mpr (hbelow o' ho')
  · intro t θ o₁ o₂ hnc1 hnc2 hle h0 hθ
    have step : ∀ (best : Option String × ℚ) (z : String) (zs : List String),
        select_doc_type_go F (bot_normalize_name t) best (z :: zs) =
          if (bot_normalize_name t).data <:+: (bot_normalize_name z).data ∨
              (bot_normalize_name z).data <:+: (bot_normalize_name t).data then
            Sum.inl z
          else select_doc_type_go F (bot_normalize_name t)
            (if best.2 < F.token_set_ratio (bot_normalize_name t)
                (bot_normalize_name z) then
              (some z, F.token_set_ratio (bot_normalize_name t)
                (bot_normalize_name z))
            else best) zs := fun _ _ _ => rfl
    unfold select_doc_type
    rw [step, if_neg (fun hx => hx.elim hnc1.1 hnc1.2)]
    rw [if_pos (show ((none : Option String), (0 : ℚ)).2 <
      F.token_set_ratio (bot_normalize_name t) (bot_normalize_name o₁) from h0)]
    rw [step, if_neg (fun hx => hx.elim hnc2.1 hnc2.2)]
    rw [if_neg (show ¬((some o₁,
        F.token_set_ratio (bot_normalize_name t) (bot_normalize_name o₁)).2 <
      F.token_set_ratio (bot_normalize_name t) (bot_normalize_name o₂)) from
      not_lt.mpr hle)]
    show (if θ ≤ F.token_set_ratio (bot_normalize_name t) (bot_normalize_name o₁)
      then some o₁ else none) = some o₁
    rw [if_pos hθ]

theorem c8_menu_matcher_amended_witness :
    select_doc_sub_type ⟨fun _ _ => 10, fun _ _ => 10⟩ "Referral"
      ["Alpha", "Beta"] = some "Alpha" :=
  (c8_menu_matcher_amended ⟨fun _ _ => 10, fun _ _ => 10⟩).2.2.1 "Referral"
    "Alpha" "Beta" (le_refl _)

/-! ### backend/ollama_agent.py: try_parse_dob (C7)

`datetime.strptime` is modelled after CPython's `_strptime`: each format
compiles to a regex (field patterns exactly as in `TimeRE`: `%d` is
`3[01]|[1-2]\d|0[1-9]|[1-9]| [1-9]`, `%m` is `1[0-2]|0[1-9]|[1-9]`, `%Y` is
`\d{4}`, whitespace is `\s+`, month names match case-insensitively), the
first match in backtracking order is taken, the whole string must have been
consumed, and the resulting calendar date must be constructible
(`datetime` validation).  Parsers return all alternatives in backtracking
order; the head is the regex engine's match. -/

def digitChar (n : ℕ) : Char := Char.ofNat (48 + n)

def digitVal (c : Char) : ℕ := c.toNat - 48

/-- strftime zero-padded two-digit field. -/
def pad2 (n : ℕ) : List Char := [digitChar (n / 10 % 10), digitChar (n % 10)]

/-- strftime four-digit year. -/
def pad4 (n : ℕ) : List Char :=
  [digitChar (n / 1000 % 10), digitChar (n / 100 % 10),
   digitChar (n / 10 % 10), digitChar (n % 10)]

/-- Alternatives of the `%d` regex `3[01]|[1-2]\d|0[1-9]|[1-9]| [1-9]`,
in alternation order. -/
def dayAlts : List Char → List (ℕ × List Char)
  | c₁ :: c₂ :: rest =>
    (if c₁ = '3' ∧ (c₂ = '0' ∨ c₂ = '1') then [(30 + digitVal c₂, rest)] else []) ++
    (if (c₁ = '1' ∨ c₁ = '2') ∧ c₂.isDigit then
      [(10 * digitVal c₁ + digitVal c₂, rest)] else []) ++
    (if c₁ = '0' ∧ ('1' ≤ c₂ ∧ c₂ ≤ '9') then [(digitVal c₂, rest)] else []) ++
    (if '1' ≤ c₁ ∧ c₁ ≤ '9' then [(digitVal c₁, c₂ :: rest)] else []) ++
    (if c₁ = ' ' ∧ ('1' ≤ c₂ ∧ c₂ ≤ '9') then [(digitVal c₂, rest)] else [])
  | [c₁] => if '1' ≤ c₁ ∧ c₁ ≤ '9' then [(digitVal c₁, [])] else []
  | [] => []

/-- Alternatives of the `%m` regex `1[0-2]|0[1-9]|[1-9]`. -/
def monthAlts : List Char → List (ℕ × List Char)
  | c₁ :: c₂ :: rest =>
    (if c₁ = '1' ∧ (c₂ = '0' ∨ c₂ = '1' ∨ c₂ = '2') then
      [(10 + digitVal c₂, rest)] else []) ++
    (if c₁ = '0' ∧ ('1' ≤ c₂ ∧ c₂ ≤ '9') then [(digitVal c₂, rest)] else []) ++
    (if '1' ≤ c₁ ∧ c₁ ≤ '9' then [(digitVal c₁, c₂ :: rest)] else [])
  | [c₁] => if '1' ≤ c₁ ∧ c₁ ≤ '9' then [(digitVal c₁, [])] else []
  | [] => []

/-- The `%Y` regex `\d\d\d\d`. -/
def year4 : List Char → List (ℕ × List Char)
  | d₁ :: d₂ :: d₃ :: d₄ :: rest =>
    if d₁.isDigit ∧ d₂.isDigit ∧ d₃.isDigit ∧ d₄.isDigit then
      [(((digitVal d₁ * 10 + digitVal d₂) * 10 + digitVal d₃) * 10 + digitVal d₄,
        rest)]
    else []
  | _ => []

/-- The literal `/` or `-` of a format. -/
def litChar (c : Char) : List Char → List (List Char)
  | x :: rest => if x = c then [rest] else []
  | [] => []

/-- The `\s+` a format space compiles to: consume at least one whitespace
character, alternatives in greedy (longest-first) order. -/
def wsAlts (l : List Char) : List (List Char) :=
  (List.range (l.takeWhile pySpace).length).map
    (fun i => ((l.takeWhile pySpace).drop ((l.takeWhile pySpace).length - i)) ++
      l.dropWhile pySpace)

/-- Case-insensitive match of a lowercase pattern against a prefix of the
input; returns the rest on success. -/
def matchPrefixCI : List Char → List Char → Option (List Char)
  | [], rest => some rest
  | p :: ps, c :: cs => if c.toLower = p then matchPrefixCI ps cs else none
  | _ :: _, [] => none

/-- C-locale month abbreviations, as `%b` matches them. -/
def monthAbbrevs : List (ℕ × String) :=
  [(1, "jan"), (2, "feb"), (3, "mar"), (4, "apr"), (5, "may"), (6, "jun"),
   (7, "jul"), (8, "aug"), (9, "sep"), (10, "oct"), (11, "nov"), (12, "dec")]

/-- C-locale full month names, as `%B` matches them. -/
def monthFulls : List (ℕ × String) :=
  [(1, "january"), (2, "february"), (3, "march"), (4, "april"), (5, "may"),
   (6, "june"), (7, "july"), (8, "august"), (9, "september"), (10, "october"),
   (11, "november"), (12, "december")]

/-- Month-name field: every name that matches, in list order. -/
def monthNameAlts (names : List (ℕ × String)) (l : List Char) :
    List (ℕ × List Char) :=
  names.filterMap (fun nm => (matchPrefixCI nm.2.data l).map (fun rest => (nm.1, rest)))

def isLeapYear (y : ℕ) : Bool :=
  (y % 4 = 0 ∧ y % 100 ≠ 0) ∨ y % 400 = 0

def daysInMonth (y m : ℕ) : ℕ :=
  if m = 2 then (if isLeapYear y then 29 else 28)
  else if m = 4 ∨ m = 6 ∨ m = 9 ∨ m = 11 then 30
  else 31

/-- `datetime(year, month, day)` constructibility. -/
def dateValid (y m d : ℕ) : Bool :=
  1 ≤ y ∧ y ≤ 9999 ∧ 1 ≤ m ∧ m ≤ 12 ∧ 1 ≤ d ∧ d ≤ daysInMonth y m

/-- All pattern matches of `"%d %b %Y"` / `"%d %B %Y"` in backtracking
order, as ((year, month, day), rest). -/
def fmt_d_name_Y (names : List (ℕ × String)) (l : List Char) :
    List ((ℕ × ℕ × ℕ) × List Char) :=
  (dayAlts l).flatMap (fun p1 =>
    (wsAlts p1.2).flatMap (fun r2 =>
      (monthNameAlts names r2).flatMap (fun p3 =>
        (wsAlts p3.2).flatMap (fun r4 =>
          (year4 r4).map (fun p5 => ((p5.1, p3.1, p1.1), p5.2))))))

/-- All pattern matches of `"%Y-%m-%d"`. -/
def fmt_Y_m_d (l : List Char) : List ((ℕ × ℕ × ℕ) × List Char) :=
  (year4 l).flatMap (fun p1 =>
    (litChar '-' p1.2).flatMap (fun r2 =>
      (monthAlts r2).flatMap (fun p3 =>
        (litChar '-' p3.2).flatMap (fun r4 =>
          (dayAlts r4).map (fun p5 => ((p1.1, p3.1, p5.1), p5.2))))))

/-- All pattern matches of `"%m/%d/%Y"`. -/
def fmt_m_d_Y (l : List Char) : List ((ℕ × ℕ × ℕ) × List Char) :=
  (monthAlts l).flatMap (fun p1 =>
    (litChar '/' p1.2).flatMap (fun r2 =>
      (dayAlts r2).flatMap (fun p3 =>
        (litChar '/' p3.2).flatMap (fun r4 =>
          (year4 r4).map (fun p5 => ((p5.1, p1.1, p3.1), p5.2))))))

/-- All pattern matches of `"%d/%m/%Y"`. -/
def fmt_d_m_Y (l : List Char) : List ((ℕ × ℕ × ℕ) × List Char) :=
  (dayAlts l).flatMap (fun p1 =>
    (litChar '/' p1.2).flatMap (fun r2 =>
      (monthAlts r2).flatMap (fun p3 =>
        (litChar '/' p3.2).flatMap (fun r4 =>
          (year4 r4).map (fun p5 => ((p5.1, p3.1, p1.1), p5.2))))))

/-- `datetime.strptime` on one format: the regex engine's match is the
first alternative; it must consume the whole string and denote a
constructible date, else this format raises and the caller moves on. -/
def runFmt (parses : List ((ℕ × ℕ × ℕ) × List Char)) : Option (ℕ × ℕ × ℕ) :=
  match parses.head? with
  | none => none
  | some (ymd, rest) =>
    if rest = [] ∧ dateValid ymd.1 ymd.2.1 ymd.2.2 then some ymd else none

/-- The five formats of `try_parse_dob`, in order. -/
def formatsResults (l : List Char) : List (Option (ℕ × ℕ × ℕ)) :=
  [runFmt (fmt_d_name_Y monthAbbrevs l),
   runFmt (fmt_d_name_Y monthFulls l),
   runFmt (fmt_Y_m_d l),
   runFmt (fmt_m_d_Y l),
   runFmt (fmt_d_m_Y l)]

def firstSome {α : Type} (l : List (Option α)) : Option α :=
  (l.filterMap id).head?

/-- `dt.strftime("%m/%d/%Y")`. -/
def dob_output (y m d : ℕ) : String :=
  ⟨pad2 m ++ '/' :: (pad2 d ++ '/' :: pad4 y)⟩

/-- The literal fallback regex
`(0[1-9]|1[0-2])/([0][1-9]|[12][0-9]|3[01])/\d{4}` as a full match. -/
def dob_regex_check : List Char → Bool
  | [a, b, s₁, c, d, s₂, e, f, g, h] =>
    s₁ = '/' ∧ s₂ = '/' ∧
    ((a = '0' ∧ '1' ≤ b ∧ b ≤ '9') ∨ (a = '1' ∧ (b = '0' ∨ b = '1' ∨ b = '2'))) ∧
    ((c = '0' ∧ '1' ≤ d ∧ d ≤ '9') ∨ ((c = '1' ∨ c = '2') ∧ d.isDigit) ∨
      (c = '3' ∧ (d = '0' ∨ d = '1'))) ∧
    e.isDigit ∧ f.isDigit ∧ g.isDigit ∧ h.isDigit
  | _ => false

/-- `try_parse_dob` of backend/ollama_agent.py: try the five formats in
order, canonicalize the first success to mm/dd/yyyy; otherwise return the
input unchanged when it already matches the canonical pattern, else None. -/
def try_parse_dob (raw : String) : Option String :=
  match firstSome (formatsResults raw.data) with
  | some ymd => some (dob_output ymd.1 ymd.2.1 ymd.2.2)
  | none => if dob_regex_check raw.data then some raw else none

/-- The spec-side renderings of one calendar date in the five accepted
input formats (zero-padded fields, title-case month names). -/
def abbrevOf (m : ℕ) : String :=
  match m with
  | 1 => "Jan" | 2 => "Feb" | 3 => "Mar" | 4 => "Apr" | 5 => "May"
  | 6 => "Jun" | 7 => "Jul" | 8 => "Aug" | 9 => "Sep" | 10 => "Oct"
  | 11 => "Nov" | 12 => "Dec" | _ => ""

def fullOf (m : ℕ) : String :=
  match m with
  | 1 => "January" | 2 => "February" | 3 => "March" | 4 => "April"
  | 5 => "May" | 6 => "June" | 7 => "July" | 8 => "August"
  | 9 => "September" | 10 => "October" | 11 => "November" | 12 => "December"
  | _ => ""

def render_d_b_Y (y m d : ℕ) : String :=
  ⟨pad2 d ++ ' ' :: ((abbrevOf m).data ++ ' ' :: pad4 y)⟩

def render_d_B_Y (y m d : ℕ) : String :=
  ⟨pad2 d ++ ' ' :: ((fullOf m).data ++ ' ' :: pad4 y)⟩

def render_Y_m_d (y m d : ℕ) : String :=
  ⟨pad4 y ++ '-' :: (pad2 m ++ '-' :: pad2 d)⟩

def render_m_d_Y (y m d : ℕ) : String :=
  ⟨pad2 m ++ '/' :: (pad2 d ++ '/' :: pad4 y)⟩

def render_d_m_Y (y m d : ℕ) : String :=
  ⟨pad2 d ++ '/' :: (pad2 m ++ '/' :: pad4 y)⟩

theorem digitChar0 : digitChar 0 = '0' := by decide
theorem digitChar1 : digitChar 1 = '1' := by decide
theorem digitChar2 : digitChar 2 = '2' := by decide
theorem digitChar3 : digitChar 3 = '3' := by decide
theorem digitChar4 : digitChar 4 = '4' := by decide
theorem digitChar5 : digitChar 5 = '5' := by decide
theorem digitChar6 : digitChar 6 = '6' := by decide
theorem digitChar7 : digitChar 7 = '7' := by decide
theorem digitChar8 : digitChar 8 = '8' := by decide
theorem digitChar9 : digitChar 9 = '9' := by decide

theorem digitChar_nonspace (k : ℕ) (h : k ≤ 9) : pySpace (digitChar k) = false := by
  interval_cases k <;> decide

theorem digitChar_isDigit (k : ℕ) (h : k ≤ 9) : (digitChar k).isDigit = true := by
  interval_cases k <;> decide

theorem digitVal_digitChar (k : ℕ) (h : k ≤ 9) : digitVal (digitChar k) = k := by
  interval_cases k <;> decide

theorem dayAlts_head (d : ℕ) (r : List Char) (h1 : 1 ≤ d) (h2 : d ≤ 31) :
    dayAlts (pad2 d ++ r) = (d, r) :: (dayAlts (pad2 d ++ r)).tail := by
  interval_cases d <;>
    simp [pad2, dayAlts, digitVal, digitChar0, digitChar1, digitChar2,
      digitChar3, digitChar4, digitChar5, digitChar6, digitChar7, digitChar8,
      digitChar9]

theorem monthAlts_head (m : ℕ) (r : List Char) (h1 : 1 ≤ m) (h2 : m ≤ 12) :
    monthAlts (pad2 m ++ r) = (m, r) :: (monthAlts (pad2 m ++ r)).tail := by
  interval_cases m <;>
    simp [pad2, monthAlts, digitVal, digitChar0, digitChar1, digitChar2,
      digitChar3, digitChar4, digitChar5, digitChar6, digitChar7, digitChar8,
      digitChar9]

theorem year4_pad4 (y : ℕ) (r : List Char) (hy : y ≤ 9999) :
    year4 (pad4 y ++ r) = [(y, r)] := by
  have e1 : y / 1000 % 10 ≤ 9 := Nat.le_of_lt_succ (Nat.mod_lt _ (by norm_num))
  have e2 : y / 100 % 10 ≤ 9 := Nat.le_of_lt_succ (Nat.mod_lt _ (by norm_num))
  have e3 : y / 10 % 10 ≤ 9 := Nat.le_of_lt_succ (Nat.mod_lt _ (by norm_num))
  have e4 : y % 10 ≤ 9 := Nat.le_of_lt_succ (Nat.mod_lt _ (by norm_num))
  show year4 (digitChar (y / 1000 % 10) :: digitChar (y / 100 % 10) ::
    digitChar (y / 10 % 10) :: digitChar (y % 10) :: r) = [(y, r)]
  simp only [year4]
  rw [if_pos ⟨digitChar_isDigit _ e1, digitChar_isDigit _ e2,
    digitChar_isDigit _ e3, digitChar_isDigit _ e4⟩]
  rw [digitVal_digitChar _ e1, digitVal_digitChar _ e2,
    digitVal_digitChar _ e3, digitVal_digitChar _ e4]
  have : ((y / 1000 % 10 * 10 + y / 100 % 10) * 10 + y / 10 % 10) * 10 + y % 10 = y := by
    omega
  rw [this]

theorem wsAlts_cons_nonspace (c : Char) (r : List Char) (h : pySpace c = false) :
    wsAlts (c :: r) = [] := by
  simp [wsAlts, List.takeWhile_cons, h]

theorem wsAlts_space_cons (S : List Char) (hS : S.takeWhile pySpace = []) :
    wsAlts (' ' :: S) = [S] := by
  have hsp : pySpace ' ' = true := by decide
  have hdr : S.dropWhile pySpace = S := by
    cases S with
    | nil => rfl
    | cons c cs =>
      rw [List.dropWhile_cons]
      rw [List.takeWhile_cons] at hS
      by_cases hc : pySpace c = true
      · rw [hc] at hS
        simp at hS
      · simp only [Bool.not_eq_true] at hc
        rw [hc]
        simp
  simp [wsAlts, List.takeWhile_cons, List.dropWhile_cons, hsp, hS, hdr]
  rw [show List.range 1 = [0] from rfl]
  simp

theorem dayAlts_rest (c₁ c₂ : Char) (rest : List Char) :
    ∀ p ∈ dayAlts (c₁ :: c₂ :: rest), p.2 = c₂ :: rest ∨ p.2 = rest := by
  intro p hp
  unfold dayAlts at hp
  simp only [List.mem_append] at hp
  rcases hp with ((((h | h) | h) | h) | h) <;> (split at h <;> simp_all)

theorem monthAlts_rest (c₁ c₂ : Char) (rest : List Char) :
    ∀ p ∈ monthAlts (c₁ :: c₂ :: rest), p.2 = c₂ :: rest ∨ p.2 = rest := by
  intro p hp
  unfold monthAlts at hp
  simp only [List.mem_append] at hp
  rcases hp with ((h | h) | h) <;> (split at h <;> simp_all)

theorem dateValid_true (y m d : ℕ) (hy1 : 1 ≤ y) (hy2 : y ≤ 9999)
    (hm1 : 1 ≤ m) (hm2 : m ≤ 12) (hd1 : 1 ≤ d) (hd2 : d ≤ daysInMonth y m) :
    dateValid y m d = true := by
  unfold dateValid
  simp only [decide_eq_true_eq]
  exact ⟨hy1, hy2, hm1, hm2, hd1, hd2⟩

theorem monthNameAlts_abbrev (m : ℕ) (r : List Char) (h1 : 1 ≤ m) (h2 : m ≤ 12) :
    monthNameAlts monthAbbrevs ((abbrevOf m).data ++ r) = [(m, r)] := by
  interval_cases m <;>
    simp [monthNameAlts, monthAbbrevs, abbrevOf, matchPrefixCI]

theorem monthNameAlts_full (m : ℕ) (r : List Char) (h1 : 1 ≤ m) (h2 : m ≤ 12) :
    monthNameAlts monthFulls ((fullOf m).data ++ r) = [(m, r)] := by
  interval_cases m <;>
    simp [monthNameAlts, monthFulls, fullOf, matchPrefixCI]

theorem abbrev_on_full_dies (m : ℕ) (r : List Char) (h1 : 1 ≤ m) (h2 : m ≤ 12)
    (h5 : m ≠ 5) :
    ∀ q ∈ monthNameAlts monthAbbrevs ((fullOf m).data ++ r), wsAlts q.2 = [] := by
  interval_cases m <;> (try exact absurd rfl h5) <;>
    simp [monthNameAlts, monthAbbrevs, fullOf, matchPrefixCI, wsAlts,
      List.takeWhile_cons, pySpace]

theorem abbrev_head_nonspace (m : ℕ) (h1 : 1 ≤ m) (h2 : m ≤ 12) :
    ∃ c cs, (abbrevOf m).data = c :: cs ∧ pySpace c = false := by
  interval_cases m <;> exact ⟨_, _, rfl, by decide⟩

theorem full_head_nonspace (m : ℕ) (h1 : 1 ≤ m) (h2 : m ≤ 12) :
    ∃ c cs, (fullOf m).data = c :: cs ∧ pySpace c = false := by
  interval_cases m <;> exact ⟨_, _, rfl, by decide⟩

theorem takeWhile_append_nonspace (c : Char) (cs z : List Char)
    (h : pySpace c = false) :
    ((c :: cs) ++ z).takeWhile pySpace = [] := by
  rw [List.cons_append, List.takeWhile_cons, h]
  rfl

theorem pad4_takeWhile (y : ℕ) : (pad4 y).takeWhile pySpace = [] := by
  have e1 : y / 1000 % 10 ≤ 9 := Nat.le_of_lt_succ (Nat.mod_lt _ (by norm_num))
  show (digitChar (y / 1000 % 10) :: _).takeWhile pySpace = []
  rw [List.takeWhile_cons, digitChar_nonspace _ e1]
  rfl

theorem head?_flatMap {α β : Type} {l : List α} {f : α → List β} {x : α}
    {tl : List α} {z : β} (hl : l = x :: tl) (hf : (f x).head? = some z) :
    (l.flatMap f).head? = some z := by
  subst hl
  rw [List.flatMap_cons]
  cases hfx : f x with
  | nil =>
    rw [hfx] at hf
    exact Option.noConfusion hf
  | cons a as =>
    rw [hfx] at hf
    injection hf with hf
    subst hf
    simp

theorem litChar_cons_eq (c : Char) (r : List Char) : litChar c (c :: r) = [r] := by
  simp [litChar]

theorem dayAlts_head_nil (d : ℕ) (h1 : 1 ≤ d) (h2 : d ≤ 31) :
    dayAlts (pad2 d) = (d, []) :: (dayAlts (pad2 d)).tail := by
  have h := dayAlts_head d [] h1 h2
  rwa [List.append_nil] at h

theorem year4_pad4_nil (y : ℕ) (hy : y ≤ 9999) : year4 (pad4 y) = [(y, [])] := by
  have h := year4_pad4 y [] hy
  rwa [List.append_nil] at h

theorem runFmt_some (parses : List ((ℕ × ℕ × ℕ) × List Char)) (y m d : ℕ)
    (hh : parses.head? = some ((y, m, d), []))
    (hv : dateValid y m d = true) : runFmt parses = some (y, m, d) := by
  unfold runFmt
  rw [hh]
  exact if_pos ⟨rfl, hv⟩

theorem runFmt_nil (parses : List ((ℕ × ℕ × ℕ) × List Char))
    (h : parses = []) : runFmt parses = none := by
  rw [h]
  rfl

theorem fmt_d_name_Y_nil_nonspace (names : List (ℕ × String))
    (c₁ c₂ c₃ : Char) (rest : List Char)
    (h₂ : pySpace c₂ = false) (h₃ : pySpace c₃ = false) :
    fmt_d_name_Y names (c₁ :: c₂ :: c₃ :: rest) = [] := by
  unfold fmt_d_name_Y
  rw [List.flatMap_eq_nil_iff]
  intro p hp
  rcases dayAlts_rest c₁ c₂ (c₃ :: rest) p hp with h | h
  · rw [h, wsAlts_cons_nonspace _ _ h₂]
    rfl
  · rw [h, wsAlts_cons_nonspace _ _ h₃]
    rfl

theorem fmt_d_name_Y_nil_of (names : List (ℕ × String)) (c₁ c₂ : Char)
    (S : List Char) (h₂ : pySpace c₂ = false)
    (hS : S.takeWhile pySpace = [])
    (hq : ∀ q ∈ monthNameAlts names S, wsAlts q.2 = []) :
    fmt_d_name_Y names (c₁ :: c₂ :: ' ' :: S) = [] := by
  unfold fmt_d_name_Y
  rw [List.flatMap_eq_nil_iff]
  intro p hp
  rcases dayAlts_rest c₁ c₂ (' ' :: S) p hp with h | h
  · rw [h, wsAlts_cons_nonspace _ _ h₂]
    rfl
  · rw [h, wsAlts_space_cons _ hS]
    simp only [List.flatMap_cons, List.flatMap_nil, List.append_nil]
    rw [List.flatMap_eq_nil_iff]
    intro q hq2
    rw [hq q hq2]
    rfl

theorem fmt_Y_m_d_nil (l : List Char) (h : year4 l = []) : fmt_Y_m_d l = [] := by
  unfold fmt_Y_m_d
  rw [h]
  rfl

theorem fmt_m_d_Y_nil_bigday (d : ℕ) (z : List Char) (h13 : 13 ≤ d)
    (h31 : d ≤ 31) : fmt_m_d_Y (pad2 d ++ z) = [] := by
  interval_cases d <;>
    simp [fmt_m_d_Y, pad2, monthAlts, litChar, digitVal, digitChar0,
      digitChar1, digitChar2, digitChar3, digitChar4, digitChar5, digitChar6,
      digitChar7, digitChar8, digitChar9]

theorem daysInMonth_le_31 (y m : ℕ) : daysInMonth y m ≤ 31 := by
  unfold daysInMonth
  split_ifs <;> omega

theorem le_daysInMonth_of_le_28 (y m d : ℕ) (h : d ≤ 28) :
    d ≤ daysInMonth y m := by
  unfold daysInMonth
  split_ifs <;> omega

theorem fmt_d_name_Y_success (names : List (ℕ × String)) (y m d : ℕ)
    (nameChars : List Char) (hd1 : 1 ≤ d) (hd2 : d ≤ 31) (hy : y ≤ 9999)
    (hname : monthNameAlts names (nameChars ++ ' ' :: pad4 y) =
      [(m, ' ' :: pad4 y)])
    (hhead : ∃ c cs, nameChars = c :: cs ∧ pySpace c = false) :
    (fmt_d_name_Y names (pad2 d ++ ' ' :: (nameChars ++ ' ' :: pad4 y))).head? =
      some ((y, m, d), []) := by
  obtain ⟨c0, cs0, hnc, hc0⟩ := hhead
  have htw : (nameChars ++ ' ' :: pad4 y).takeWhile pySpace = [] := by
    rw [hnc]
    exact takeWhile_append_nonspace c0 cs0 _ hc0
  unfold fmt_d_name_Y
  apply head?_flatMap (dayAlts_head d (' ' :: (nameChars ++ ' ' :: pad4 y)) hd1 hd2)
  dsimp only
  rw [wsAlts_space_cons _ htw]
  apply head?_flatMap rfl
  dsimp only
  rw [hname]
  apply head?_flatMap rfl
  dsimp only
  rw [wsAlts_space_cons _ (pad4_takeWhile y)]
  apply head?_flatMap rfl
  dsimp only
  rw [year4_pad4_nil y hy]
  rfl

theorem fmt_Y_m_d_success (y m d : ℕ) (hy : y ≤ 9999) (hm1 : 1 ≤ m)
    (hm2 : m ≤ 12) (hd1 : 1 ≤ d) (hd2 : d ≤ 31) :
    (fmt_Y_m_d (pad4 y ++ '-' :: (pad2 m ++ '-' :: pad2 d))).head? =
      some ((y, m, d), []) := by
  unfold fmt_Y_m_d
  apply head?_flatMap (year4_pad4 y ('-' :: (pad2 m ++ '-' :: pad2 d)) hy)
  dsimp only
  rw [litChar_cons_eq]
  apply head?_flatMap rfl
  dsimp only
  apply head?_flatMap (monthAlts_head m ('-' :: pad2 d) hm1 hm2)
  dsimp only
  rw [litChar_cons_eq]
  apply head?_flatMap rfl
  dsimp only
  rw [dayAlts_head_nil d hd1 hd2]
  rfl

theorem fmt_m_d_Y_success (y a b : ℕ) (hy : y ≤ 9999) (ha1 : 1 ≤ a)
    (ha2 : a ≤ 12) (hb1 : 1 ≤ b) (hb2 : b ≤ 31) :
    (fmt_m_d_Y (pad2 a ++ '/' :: (pad2 b ++ '/' :: pad4 y))).head? =
      some ((y, a, b), []) := by
  unfold fmt_m_d_Y
  apply head?_flatMap (monthAlts_head a ('/' :: (pad2 b ++ '/' :: pad4 y)) ha1 ha2)
  dsimp only
  rw [litChar_cons_eq]
  apply head?_flatMap rfl
  dsimp only
  apply head?_flatMap (dayAlts_head b ('/' :: pad4 y) hb1 hb2)
  dsimp only
  rw [litChar_cons_eq]
  apply head?_flatMap rfl
  dsimp only
  rw [year4_pad4_nil y hy]
  rfl

theorem fmt_d_m_Y_success (y m d : ℕ) (hy : y ≤ 9999) (hm1 : 1 ≤ m)
    (hm2 : m ≤ 12) (hd1 : 1 ≤ d) (hd2 : d ≤ 31) :
    (fmt_d_m_Y (pad2 d ++ '/' :: (pad2 m ++ '/' :: pad4 y))).head? =
      some ((y, m, d), []) := by
  unfold fmt_d_m_Y
  apply head?_flatMap (dayAlts_head d ('/' :: (pad2 m ++ '/' :: pad4 y)) hd1 hd2)
  dsimp only
  rw [litChar_cons_eq]
  apply head?_flatMap rfl
  dsimp only
  apply head?_flatMap (monthAlts_head m ('/' :: pad4 y) hm1 hm2)
  dsimp only
  rw [litChar_cons_eq]
  apply head?_flatMap rfl
  dsimp only
  rw [year4_pad4_nil y hy]
  rfl

theorem tpd_first (raw : String) (y m d : ℕ)
    (h1 : runFmt (fmt_d_name_Y monthAbbrevs raw.data) = some (y, m, d)) :
    try_parse_dob raw = some (dob_output y m d) := by
  unfold try_parse_dob firstSome formatsResults
  rw [h1]
  rfl

theorem tpd_second (raw : String) (y m d : ℕ)
    (h1 : runFmt (fmt_d_name_Y monthAbbrevs raw.data) = none)
    (h2 : runFmt (fmt_d_name_Y monthFulls raw.data) = some (y, m, d)) :
    try_parse_dob raw = some (dob_output y m d) := by
  unfold try_parse_dob firstSome formatsResults
  rw [h1, h2]
  rfl

theorem tpd_third (raw : String) (y m d : ℕ)
    (h1 : runFmt (fmt_d_name_Y monthAbbrevs raw.data) = none)
    (h2 : runFmt (fmt_d_name_Y monthFulls raw.data) = none)
    (h3 : runFmt (fmt_Y_m_d raw.data) = some (y, m, d)) :
    try_parse_dob raw = some (dob_output y m d) := by
  unfold try_parse_dob firstSome formatsResults
  rw [h1, h2, h3]
  rfl

theorem tpd_fourth (raw : String) (y m d : ℕ)
    (h1 : runFmt (fmt_d_name_Y monthAbbrevs raw.data) = none)
    (h2 : runFmt (fmt_d_name_Y monthFulls raw.data) = none)
    (h3 : runFmt (fmt_Y_m_d raw.data) = none)
    (h4 : runFmt (fmt_m_d_Y raw.data) = some (y, m, d)) :
    try_parse_dob raw = some (dob_output y m d) := by
  unfold try_parse_dob firstSome formatsResults
  rw [h1, h2, h3, h4]
  rfl

theorem tpd_fifth (raw : String) (y m d : ℕ)
    (h1 : runFmt (fmt_d_name_Y monthAbbrevs raw.data) = none)
    (h2 : runFmt (fmt_d_name_Y monthFulls raw.data) = none)
    (h3 : runFmt (fmt_Y_m_d raw.data) = none)
    (h4 : runFmt (fmt_m_d_Y raw.data) = none)
    (h5 : runFmt (fmt_d_m_Y raw.data) = some (y, m, d)) :
    try_parse_dob raw = some (dob_output y m d) := by
  unfold try_parse_dob firstSome formatsResults
  rw [h1, h2, h3, h4, h5]
  rfl

/-- The claim's round-trip is false of the code: the day/month/year
rendering of 5 March 2020 is "05/03/2020", which `%m/%d/%Y` — tried first —
parses as May 3, so `try_parse_dob` returns "05/03/2020" while the other
renderings of the same date (e.g. "2020-03-05") return "03/05/2020". -/
theorem c7_dmy_round_trip_counterexample :
    render_d_m_Y 2020 3 5 = "05/03/2020" ∧
    try_parse_dob "05/03/2020" = some "05/03/2020" ∧
    try_parse_dob "2020-03-05" = some "03/05/2020" ∧
    ("05/03/2020" : String) ≠ "03/05/2020" := by
  refine ⟨by decide, by decide, by decide, by decide⟩

/-- C7 (amended): for every valid calendar date, the `day month-name year`
(abbreviated and full), `year-month-day` and `month/day/year` renderings all
canonicalize to the same mm/dd/yyyy string; the `day/month/year` rendering
does so only when it is not also parseable as month/day/year — i.e. when
day > 12 (or trivially when day = month) — because `%m/%d/%Y` is tried
first; and when no format parses, the input is returned unchanged exactly
when it matches the literal mm/dd/yyyy regex, else the field is None. -/
theorem c7_date_canonicalization_amended (y m d : ℕ)
    (hy1 : 1000 ≤ y) (hy2 : y ≤ 9999) (hm1 : 1 ≤ m) (hm2 : m ≤ 12)
    (hd1 : 1 ≤ d) (hd2 : d ≤ daysInMonth y m) :
    try_parse_dob (render_d_b_Y y m d) = some (dob_output y m d) ∧
    try_parse_dob (render_d_B_Y y m d) = some (dob_output y m d) ∧
    try_parse_dob (render_Y_m_d y m d) = some (dob_output y m d) ∧
    try_parse_dob (render_m_d_Y y m d) = some (dob_output y m d) ∧
    (12 < d ∨ d = m →
      try_parse_dob (render_d_m_Y y m d) = some (dob_output y m d)) ∧
    (∀ s : String, firstSome (formatsResults s.data) = none →
      try_parse_dob s = if dob_regex_check s.data then some s else none) := by
  have hy1' : 1 ≤ y := le_trans (by norm_num) hy1
  have hd31 : d ≤ 31 := le_trans hd2 (daysInMonth_le_31 y m)
  have hv : dateValid y m d = true := dateValid_true y m d hy1' hy2 hm1 hm2 hd1 hd2
  have ed2 : d % 10 ≤ 9 := Nat.le_of_lt_succ (Nat.mod_lt _ (by norm_num))
  have em2 : m % 10 ≤ 9 := Nat.le_of_lt_succ (Nat.mod_lt _ (by norm_num))
  have ey2 : y / 100 % 10 ≤ 9 := Nat.le_of_lt_succ (Nat.mod_lt _ (by norm_num))
  have ey3 : y / 10 % 10 ≤ 9 := Nat.le_of_lt_succ (Nat.mod_lt _ (by norm_num))
  have hslash : pySpace '/' = false := by decide
  refine ⟨?_, ?_, ?_, ?_, ?_, ?_⟩
  · apply tpd_first
    apply runFmt_some _ y m d _ hv
    show (fmt_d_name_Y monthAbbrevs
      (pad2 d ++ ' ' :: ((abbrevOf m).data ++ ' ' :: pad4 y))).head? =
      some ((y, m, d), [])
    exact fmt_d_name_Y_success monthAbbrevs y m d (abbrevOf m).data hd1 hd31 hy2
      (monthNameAlts_abbrev m (' ' :: pad4 y) hm1 hm2)
      (abbrev_head_nonspace m hm1 hm2)
  · by_cases hm5 : m = 5
    · subst hm5
      apply tpd_first
      apply runFmt_some _ y 5 d _ hv
      show (fmt_d_name_Y monthAbbrevs
        (pad2 d ++ ' ' :: ((abbrevOf 5).data ++ ' ' :: pad4 y))).head? =
        some ((y, 5, d), [])
      exact fmt_d_name_Y_success monthAbbrevs y 5 d (abbrevOf 5).data hd1 hd31 hy2
        (monthNameAlts_abbrev 5 (' ' :: pad4 y) (by norm_num) (by norm_num))
        (abbrev_head_nonspace 5 (by norm_num) (by norm_num))
    · apply tpd_second
      · apply runFmt_nil
        obtain ⟨c0, cs0, hfc, hc0⟩ := full_head_nonspace m hm1 hm2
        show fmt_d_name_Y monthAbbrevs
          (digitChar (d / 10 % 10) :: digitChar (d % 10) :: ' ' ::
            ((fullOf m).data ++ ' ' :: pad4 y)) = []
        apply fmt_d_name_Y_nil_of
        · exact digitChar_nonspace _ ed2
        · rw [hfc]
          exact takeWhile_append_nonspace c0 cs0 _ hc0
        · exact abbrev_on_full_dies m (' ' :: pad4 y) hm1 hm2 hm5
      · apply runFmt_some _ y m d _ hv
        show (fmt_d_name_Y monthFulls
          (pad2 d ++ ' ' :: ((fullOf m).data ++ ' ' :: pad4 y))).head? =
          some ((y, m, d), [])
        exact fmt_d_name_Y_success monthFulls y m d (fullOf m).data hd1 hd31 hy2
          (monthNameAlts_full m (' ' :: pad4 y) hm1 hm2)
          (full_head_nonspace m hm1 hm2)
  · apply tpd_third
    · apply runFmt_nil
      show fmt_d_name_Y monthAbbrevs
        (digitChar (y / 1000 % 10) :: digitChar (y / 100 % 10) ::
          digitChar (y / 10 % 10) ::
          (digitChar (y % 10) :: '-' :: (pad2 m ++ '-' :: pad2 d))) = []
      exact fmt_d_name_Y_nil_nonspace _ _ _ _ _
        (digitChar_nonspace _ ey2) (digitChar_nonspace _ ey3)
    · apply runFmt_nil
      show fmt_d_name_Y monthFulls
        (digitChar (y / 1000 % 10) :: digitChar (y / 100 % 10) ::
          digitChar (y / 10 % 10) ::
          (digitChar (y % 10) :: '-' :: (pad2 m ++ '-' :: pad2 d))) = []
      exact fmt_d_name_Y_nil_nonspace _ _ _ _ _
        (digitChar_nonspace _ ey2) (digitChar_nonspace _ ey3)
    · apply runFmt_some _ y m d _ hv
      show (fmt_Y_m_d (pad4 y ++ '-' :: (pad2 m ++ '-' :: pad2 d))).head? =
        some ((y, m, d), [])
      exact fmt_Y_m_d_success y m d hy2 hm1 hm2 hd1 hd31
  · apply tpd_fourth
    · apply runFmt_nil
      show fmt_d_name_Y monthAbbrevs
        (digitChar (m / 10 % 10) :: digitChar (m % 10) :: '/' ::
          (pad2 d ++ '/' :: pad4 y)) = []
      exact fmt_d_name_Y_nil_nonspace _ _ _ _ _
        (digitChar_nonspace _ em2) hslash
    · apply runFmt_nil
      show fmt_d_name_Y monthFulls
        (digitChar (m / 10 % 10) :: digitChar (m % 10) :: '/' ::
          (pad2 d ++ '/' :: pad4 y)) = []
      exact fmt_d_name_Y_nil_nonspace _ _ _ _ _
        (digitChar_nonspace _ em2) hslash
    · apply runFmt_nil
      apply fmt_Y_m_d_nil
      show year4 (digitChar (m / 10 % 10) :: digitChar (m % 10) :: '/' ::
        digitChar (d / 10 % 10) :: (digitChar (d % 10) :: '/' :: pad4 y)) = []
      simp [year4]
    · apply runFmt_some _ y m d _ hv
      show (fmt_m_d_Y (pad2 m ++ '/' :: (pad2 d ++ '/' :: pad4 y))).head? =
        some ((y, m, d), [])
      exact fmt_m_d_Y_success y m d hy2 hm1 hm2 hd1 hd31
  · intro hcase
    have fail1 : runFmt (fmt_d_name_Y monthAbbrevs (render_d_m_Y y m d).data) = none := by
      apply runFmt_nil
      show fmt_d_name_Y monthAbbrevs
        (digitChar (d / 10 % 10) :: digitChar (d % 10) :: '/' ::
          (pad2 m ++ '/' :: pad4 y)) = []
      exact fmt_d_name_Y_nil_nonspace _ _ _ _ _
        (digitChar_nonspace _ ed2) hslash
    have fail2 : runFmt (fmt_d_name_Y monthFulls (render_d_m_Y y m d).data) = none := by
      apply runFmt_nil
      show fmt_d_name_Y monthFulls
        (digitChar (d / 10 % 10) :: digitChar (d % 10) :: '/' ::
          (pad2 m ++ '/' :: pad4 y)) = []
      exact fmt_d_name_Y_nil_nonspace _ _ _ _ _
        (digitChar_nonspace _ ed2) hslash
    have fail3 : runFmt (fmt_Y_m_d (render_d_m_Y y m d).data) = none := by
      apply runFmt_nil
      apply fmt_Y_m_d_nil
      show year4 (digitChar (d / 10 % 10) :: digitChar (d % 10) :: '/' ::
        digitChar (m / 10 % 10) :: (digitChar (m % 10) :: '/' :: pad4 y)) = []
      simp [year4]
    rcases hcase with hbig | hdm
    · apply tpd_fifth _ _ _ _ fail1 fail2 fail3
      · apply runFmt_nil
        show fmt_m_d_Y (pad2 d ++ ('/' :: (pad2 m ++ '/' :: pad4 y))) = []
        exact fmt_m_d_Y_nil_bigday d _ (by omega) hd31
      · apply runFmt_some _ y m d _ hv
        show (fmt_d_m_Y (pad2 d ++ '/' :: (pad2 m ++ '/' :: pad4 y))).head? =
          some ((y, m, d), [])
        exact fmt_d_m_Y_success y m d hy2 hm1 hm2 hd1 hd31
    · subst hdm
      apply tpd_fourth _ _ _ _ fail1 fail2 fail3
      apply runFmt_some _ y d d _
        (dateValid_true y d d hy1' hy2 hd1 hm2 hd1
          (le_daysInMonth_of_le_28 y d d (by omega)))
      show (fmt_m_d_Y (pad2 d ++ '/' :: (pad2 d ++ '/' :: pad4 y))).head? =
        some ((y, d, d), [])
      exact fmt_m_d_Y_success y d d hy2 hd1 hm2 hd1 (by omega)
  · intro s hnone
    unfold try_parse_dob
    rw [hnone]

theorem c7_date_canonicalization_amended_witness :
    try_parse_dob "25 Dec 2021" = some "12/25/2021" ∧
    try_parse_dob "25/12/2021" = some "12/25/2021" := by
  have h := c7_date_canonicalization_amended 2021 12 25 (by norm_num)
    (by norm_num) (by norm_num) (by norm_num) (by norm_num)
    (by norm_num [daysInMonth, isLeapYear])
  constructor
  · have h1 := h.1
    rw [show render_d_b_Y 2021 12 25 = "25 Dec 2021" from by decide,
      show dob_output 2021 12 25 = "12/25/2021" from by decide] at h1
    exact h1
  · have h5 := h.2.2.2.2.1 (Or.inl (by norm_num))
    rw [show render_d_m_Y 2021 12 25 = "25/12/2021" from by decide,
      show dob_output 2021 12 25 = "12/25/2021" from by decide] at h5
    exact h5

/-! ### C9: idempotence of the two string normalizers -/

/-! ### Character-level facts -/

theorem uint32_le_iff (a b : UInt32) : a ≤ b ↔ a.toNat ≤ b.toNat := by
  rw [UInt32.le_def, BitVec.le_def]
  exact Iff.rfl

theorem char_eq_iff (a b : Char) : a = b ↔ a.toNat = b.toNat := by
  constructor
  · intro h
    rw [h]
  · intro h
    exact Char.eq_of_val_eq (UInt32.ext h)

theorem char_toNat_ofNat (n : ℕ) (h : n.isValidChar) : (Char.ofNat n).toNat = n := by
  unfold Char.ofNat
  rw [dif_pos h]
  rfl

theorem toLower_toNat (c : Char) : (Char.toLower c).toNat =
    if 65 ≤ c.toNat ∧ c.toNat ≤ 90 then c.toNat + 32 else c.toNat := by
  unfold Char.toLower
  by_cases h : 65 ≤ c.toNat ∧ c.toNat ≤ 90
  · rw [if_pos h, if_pos h]
    exact char_toNat_ofNat _ (Or.inl (by omega))
  · rw [if_neg h, if_neg h]

theorem toLower_idem (c : Char) : (Char.toLower c).toLower = c.toLower := by
  rw [char_eq_iff, toLower_toNat (Char.toLower c), toLower_toNat c]
  split_ifs <;> omega

theorem pyWordChar_iff (c : Char) : pyWordChar c = true ↔
    (48 ≤ c.toNat ∧ c.toNat ≤ 57) ∨ (65 ≤ c.toNat ∧ c.toNat ≤ 90) ∨
    (97 ≤ c.toNat ∧ c.toNat ≤ 122) ∨ c.toNat = 95 := by
  have h48 : (48 : UInt32).toNat = 48 := rfl
  have h57 : (57 : UInt32).toNat = 57 := rfl
  have h65 : (65 : UInt32).toNat = 65 := rfl
  have h90 : (90 : UInt32).toNat = 90 := rfl
  have h97 : (97 : UInt32).toNat = 97 := rfl
  have h122 : (122 : UInt32).toNat = 122 := rfl
  have hund : ('_').toNat = 95 := rfl
  unfold pyWordChar Char.isAlphanum Char.isAlpha Char.isUpper Char.isLower Char.isDigit
  have hv : c.val.toNat = c.toNat := rfl
  simp only [Bool.or_eq_true, Bool.and_eq_true, decide_eq_true_eq, ge_iff_le,
    uint32_le_iff, char_eq_iff, h48, h57, h65, h90, h97, h122, hund, hv]
  tauto

theorem pySpace_iff (c : Char) : pySpace c = true ↔
    c.toNat = 32 ∨ c.toNat = 9 ∨ c.toNat = 10 ∨ c.toNat = 13 ∨
    c.toNat = 11 ∨ c.toNat = 12 := by
  have h1 : (' ').toNat = 32 := rfl
  have h2 : ('\t').toNat = 9 := rfl
  have h3 : ('\n').toNat = 10 := rfl
  have h4 : ('\r').toNat = 13 := rfl
  have h5 : ('\x0b').toNat = 11 := rfl
  have h6 : ('\x0c').toNat = 12 := rfl
  unfold pySpace
  simp only [Bool.or_eq_true, decide_eq_true_eq, char_eq_iff, h1, h2, h3, h4, h5, h6]
  tauto

theorem pyWord_toLower (c : Char) (h : pyWordChar c = true) :
    pyWordChar (Char.toLower c) = true := by
  rw [pyWordChar_iff] at h ⊢
  rw [toLower_toNat]
  split_ifs <;> omega

theorem pySpace_toLower (c : Char) : pySpace (Char.toLower c) = pySpace c := by
  have hiff : pySpace (Char.toLower c) = true ↔ pySpace c = true := by
    rw [pySpace_iff, pySpace_iff, toLower_toNat]
    split_ifs with h
    · constructor <;> (intro hx; omega)
    · exact Iff.rfl
  cases hb : pySpace c with
  | true => exact hiff.mpr hb
  | false =>
    cases hb2 : pySpace (Char.toLower c) with
    | true => exact absurd (hiff.mp hb2) (by rw [hb]; simp)
    | false => rfl

theorem class_toLower (c : Char) (h : (pyWordChar c || pySpace c) = true) :
    (pyWordChar (Char.toLower c) || pySpace (Char.toLower c)) = true := by
  rcases Bool.or_eq_true .. |>.mp h with h | h
  · rw [pyWord_toLower c h]
    rfl
  · rw [pySpace_toLower, h]
    simp

theorem space_space : pySpace ' ' = true := rfl

theorem toLower_space : Char.toLower ' ' = ' ' := by decide

/-! ### Stage lemmas for helper.py normalize_name idempotence -/

/-- Characters produced by `punctToSpace` are word characters or whitespace. -/
theorem punct_mem (l : List Char) (c : Char) (hc : c ∈ punctToSpace l) :
    (pyWordChar c || pySpace c) = true := by
  obtain ⟨a, _, rfl⟩ := List.mem_map.mp hc
  by_cases h : (pyWordChar a || pySpace a) = true
  · rw [if_pos h]
    exact h
  · rw [if_neg h]
    rfl

theorem punct_id (l : List Char) (h : ∀ c ∈ l, (pyWordChar c || pySpace c) = true) :
    punctToSpace l = l := by
  unfold punctToSpace
  rw [show l.map (fun c => if pyWordChar c || pySpace c then c else ' ') =
      l.map id from List.map_congr_left (fun a ha => by rw [if_pos (h a ha)]; rfl)]
  exact List.map_id l

theorem lower_id (l : List Char) (h : ∀ c ∈ l, Char.toLower c = c) :
    lowerChars l = l := by
  unfold lowerChars
  rw [show l.map Char.toLower = l.map id from
    List.map_congr_left (fun a ha => h a ha)]
  exact List.map_id l

/-- Every character of `lowerChars l` is toLower-fixed. -/
theorem lower_mem_fix (l : List Char) (c : Char) (hc : c ∈ lowerChars l) :
    Char.toLower c = c := by
  obtain ⟨a, _, rfl⟩ := List.mem_map.mp hc
  exact toLower_idem a

theorem collapse_mem (b : Bool) (l : List Char) (c : Char)
    (hc : c ∈ collapseWsAux b l) : c ∈ l ∨ c = ' ' := by
  induction l generalizing b with
  | nil => exact absurd hc (List.not_mem_nil c)
  | cons d rest ih =>
    unfold collapseWsAux at hc
    by_cases hd : pySpace d = true
    · rw [if_pos hd] at hc
      cases b with
      | true =>
        rw [if_pos rfl] at hc
        rcases ih true hc with h | h
        · exact Or.inl (List.mem_cons_of_mem d h)
        · exact Or.inr h
      | false =>
        rw [if_neg (by simp)] at hc
        rcases List.mem_cons.mp hc with h | h
        · exact Or.inr h
        · rcases ih true h with h2 | h2
          · exact Or.inl (List.mem_cons_of_mem d h2)
          · exact Or.inr h2
    · rw [if_neg hd] at hc
      rcases List.mem_cons.mp hc with h | h
      · exact Or.inl (h ▸ List.mem_cons_self d rest)
      · rcases ih false h with h2 | h2
        · exact Or.inl (List.mem_cons_of_mem d h2)
        · exact Or.inr h2

/-- Every whitespace character emitted by the whitespace-collapsing pass is
the plain space. -/
theorem collapse_space_is_space (b : Bool) (l : List Char) (c : Char)
    (hc : c ∈ collapseWsAux b l) (hsp : pySpace c = true) : c = ' ' := by
  induction l generalizing b with
  | nil => exact absurd hc (List.not_mem_nil c)
  | cons d rest ih =>
    unfold collapseWsAux at hc
    by_cases hd : pySpace d = true
    · rw [if_pos hd] at hc
      cases b with
      | true =>
        rw [if_pos rfl] at hc
        exact ih true hc
      | false =>
        rw [if_neg (by simp)] at hc
        rcases List.mem_cons.mp hc with h | h
        · exact h
        · exact ih true h
    · rw [if_neg hd] at hc
      rcases List.mem_cons.mp hc with h | h
      · rw [h] at hsp
        exact absurd hsp hd
      · exact ih false h

/-- After a run has just been collapsed (flag `true`), the next emitted
character is never whitespace. -/
theorem collapse_head_true (l : List Char) (c : Char)
    (hc : (collapseWsAux true l).head? = some c) : pySpace c = false := by
  induction l with
  | nil => exact absurd hc (by simp [collapseWsAux])
  | cons d rest ih =>
    unfold collapseWsAux at hc
    by_cases hd : pySpace d = true
    · rw [if_pos hd, if_pos rfl] at hc
      exact ih hc
    · rw [if_neg hd] at hc
      injection hc with h
      rw [← h]
      exact Bool.not_eq_true _ ▸ hd

/-- The output of the whitespace-collapsing pass never has two adjacent
whitespace characters. -/
theorem collapse_chain (b : Bool) (l : List Char) :
    List.Chain' (fun a c => pySpace a = false ∨ pySpace c = false)
      (collapseWsAux b l) := by
  induction l generalizing b with
  | nil => simp [collapseWsAux]
  | cons d rest ih =>
    unfold collapseWsAux
    by_cases hd : pySpace d = true
    · rw [if_pos hd]
      cases b with
      | true =>
        rw [if_pos rfl]
        exact ih true
      | false =>
        rw [if_neg (by simp)]
        rw [List.chain'_cons']
        refine ⟨fun y hy => Or.inr (collapse_head_true rest y hy), ih true⟩
    · rw [if_neg hd]
      rw [List.chain'_cons']
      refine ⟨fun y _ => Or.inl (Bool.not_eq_true _ ▸ hd), ih false⟩

/-- Collapsing is the identity on lists whose whitespace characters are all
plain spaces with no two adjacent. -/
theorem collapse_id (l : List Char)
    (h1 : ∀ c ∈ l, pySpace c = true → c = ' ')
    (h2 : List.Chain' (fun a c => pySpace a = false ∨ pySpace c = false) l) :
    collapseWsAux false l = l := by
  induction l with
  | nil => rfl
  | cons d rest ih =>
    unfold collapseWsAux
    by_cases hd : pySpace d = true
    · rw [if_pos hd]
      have hrest : collapseWsAux true rest = collapseWsAux false rest := by
        cases rest with
        | nil => rfl
        | cons e es =>
          have he : pySpace e = false := by
            have := (List.chain'_cons'.mp h2).1 e rfl
            rcases this with h | h
            · rw [hd] at h
              exact absurd h (by simp)
            · exact h
          unfold collapseWsAux
          rw [if_neg (by rw [he]; simp), if_neg (by rw [he]; simp)]
      rw [hrest, ih (fun c hc hsp => h1 c (List.mem_cons_of_mem d hc) hsp)
        (List.chain'_cons'.mp h2).2,
        h1 d (List.mem_cons_self d rest) hd]
      rfl
    · rw [if_neg hd,
        ih (fun c hc hsp => h1 c (List.mem_cons_of_mem d hc) hsp)
          (List.chain'_cons'.mp h2).2]

theorem strip_mem (l : List Char) (c : Char) (hc : c ∈ stripWs l) : c ∈ l := by
  unfold stripWs at hc
  rw [List.mem_reverse] at hc
  have h1 := (List.dropWhile_suffix pySpace).subset hc
  rw [List.mem_reverse] at h1
  exact (List.dropWhile_suffix pySpace).subset h1

/-- A chain property survives taking a suffix. -/
theorem chain_suffix {R : Char → Char → Prop} (l l' : List Char)
    (h : List.Chain' R l) (hs : l' <:+ l) : List.Chain' R l' := by
  obtain ⟨pre, rfl⟩ := hs
  exact (List.chain'_append.mp h).2.1

/-- A symmetric chain property survives stripping. -/
theorem strip_chain {R : Char → Char → Prop} (hsym : ∀ a c, R a c → R c a)
    (l : List Char) (h : List.Chain' R l) : List.Chain' R (stripWs l) := by
  unfold stripWs
  rw [List.chain'_reverse]
  refine List.Chain'.imp (fun a c hac => hsym a c hac) ?_
  refine chain_suffix _ _ ?_ (List.dropWhile_suffix pySpace)
  rw [List.chain'_reverse]
  refine List.Chain'.imp (fun a c hac => hsym a c hac) ?_
  exact chain_suffix _ _ h (List.dropWhile_suffix pySpace)

theorem dropWhile_head_not (p : Char → Bool) (l : List Char) (c : Char)
    (hc : (l.dropWhile p).head? = some c) : p c = false := by
  have := List.head?_dropWhile_not p l
  rw [hc] at this
  exact this

theorem dropWhile_eq_self_of (p : Char → Bool) (l : List Char)
    (h : ∀ c, l.head? = some c → p c = false) : l.dropWhile p = l := by
  cases l with
  | nil => rfl
  | cons d rest =>
    rw [List.dropWhile_cons, if_neg (by rw [h d rfl]; simp)]

/-- `strip` is idempotent. -/
theorem strip_idem (l : List Char) : stripWs (stripWs l) = stripWs l := by
  unfold stripWs
  have hC : ∀ c, (((l.dropWhile pySpace).reverse.dropWhile pySpace).reverse).head? =
      some c → pySpace c = false := by
    intro c hc
    rw [List.head?_reverse] at hc
    obtain ⟨pre, hpre⟩ := List.dropWhile_suffix (l := (l.dropWhile pySpace).reverse) pySpace
    have hlast : (l.dropWhile pySpace).reverse.getLast? = some c := by
      rw [← hpre, List.getLast?_append, hc]
      rfl
    rw [List.getLast?_reverse] at hlast
    exact dropWhile_head_not pySpace l c hlast
  rw [dropWhile_eq_self_of pySpace _ hC, List.reverse_reverse,
    dropWhile_eq_self_of pySpace _ (fun c hc => dropWhile_head_not pySpace _ c hc)]

/-- One pass of helper.py normalize_name is a fixed point of a second pass
(char-list level). -/
theorem normalize_idem_data (l : List Char) :
    stripWs (collapseWsAux false (lowerChars (punctToSpace
      (stripWs (collapseWsAux false (lowerChars (punctToSpace l))))))) =
    stripWs (collapseWsAux false (lowerChars (punctToSpace l))) := by
  set X := lowerChars (punctToSpace l) with hX
  set M := collapseWsAux false X with hM
  set out := stripWs M with hout
  have hmemM : ∀ c ∈ out, c ∈ X ∨ c = ' ' := fun c hc =>
    collapse_mem false X c (strip_mem M c hc)
  have hclass : ∀ c ∈ out, (pyWordChar c || pySpace c) = true := by
    intro c hc
    rcases hmemM c hc with h | h
    · rw [hX] at h
      obtain ⟨a, ha, rfl⟩ := List.mem_map.mp h
      exact class_toLower a (punct_mem _ a ha)
    · rw [h, Bool.or_eq_true]
      exact Or.inr space_space
  have hfix : ∀ c ∈ out, Char.toLower c = c := by
    intro c hc
    rcases hmemM c hc with h | h
    · exact lower_mem_fix _ c (hX ▸ h)
    · rw [h]
      exact toLower_space
  have hsp1 : ∀ c ∈ out, pySpace c = true → c = ' ' := fun c hc =>
    collapse_space_is_space false X c (strip_mem M c hc)
  have hch : List.Chain' (fun a c => pySpace a = false ∨ pySpace c = false) out :=
    strip_chain (fun a c hac => hac.symm) M (hM ▸ collapse_chain false X)
  rw [punct_id out hclass, lower_id out hfix, collapse_id out hsp1 hch, hout,
    strip_idem M]

/-! ### Lemmas for TalkEHRBot.normalize_name idempotence -/

theorem splitOnP_all_false (p : Char → Bool) (l : List Char)
    (h : ∀ c ∈ l, p c = false) : l.splitOnP p = [l] := by
  induction l with
  | nil => exact List.splitOnP_nil p
  | cons a l' ih =>
    rw [List.splitOnP_cons,
      if_neg (by rw [h a (List.mem_cons_self a l')]; simp),
      ih (fun c hc => h c (List.mem_cons_of_mem a hc))]
    rfl

theorem splitOnP_append_sep (p : Char → Bool) (w : List Char) (sep : Char)
    (rest : List Char) (hw : ∀ c ∈ w, p c = false) (hsep : p sep = true) :
    (w ++ sep :: rest).splitOnP p = w :: rest.splitOnP p := by
  induction w with
  | nil =>
    rw [List.nil_append, List.splitOnP_cons, if_pos hsep]
  | cons c w' ih =>
    rw [List.cons_append, List.splitOnP_cons,
      if_neg (by rw [hw c (List.mem_cons_self c w')]; simp),
      ih (fun d hd => hw d (List.mem_cons_of_mem c hd))]
    rfl

/-- Characters of any chunk produced by `splitOnP` come from the input and
never satisfy the separator predicate. -/
theorem splitOnP_chars (p : Char → Bool) (l : List Char) :
    ∀ t ∈ l.splitOnP p, ∀ c ∈ t, c ∈ l ∧ p c = false := by
  induction l with
  | nil =>
    intro t ht c hc
    rw [List.splitOnP_nil] at ht
    rcases List.mem_singleton.mp ht with rfl
    exact absurd hc (List.not_mem_nil c)
  | cons a l' ih =>
    intro t ht c hc
    rw [List.splitOnP_cons] at ht
    by_cases ha : p a = true
    · rw [if_pos ha] at ht
      rcases List.mem_cons.mp ht with rfl | ht'
      · exact absurd hc (List.not_mem_nil c)
      · obtain ⟨h1, h2⟩ := ih t ht' c hc
        exact ⟨List.mem_cons_of_mem a h1, h2⟩
    · rw [if_neg ha] at ht
      obtain ⟨hd, tt, hht⟩ := List.exists_cons_of_ne_nil (List.splitOnP_ne_nil p l')
      rw [hht, show List.modifyHead (List.cons a) (hd :: tt) = (a :: hd) :: tt
        from rfl] at ht
      rcases List.mem_cons.mp ht with rfl | ht'
      · rcases List.mem_cons.mp hc with rfl | hc'
        · exact ⟨List.mem_cons_self c l', Bool.not_eq_true _ ▸ ha⟩
        · obtain ⟨h1, h2⟩ := ih hd (by rw [hht]; exact List.mem_cons_self hd tt) c hc'
          exact ⟨List.mem_cons_of_mem a h1, h2⟩
      · obtain ⟨h1, h2⟩ := ih t (by rw [hht]; exact List.mem_cons_of_mem hd ht') c hc
        exact ⟨List.mem_cons_of_mem a h1, h2⟩

/-- The character sequence of `" ".join(words)`. -/
def joinChars : List (List Char) → List Char
  | [] => []
  | w :: ws => w ++ ws.flatMap (fun t => ' ' :: t)

theorem intercalate_go_data (acc : String) (as : List String) :
    (String.intercalate.go acc " " as).data =
      acc.data ++ as.flatMap (fun a => ' ' :: a.data) := by
  induction as generalizing acc with
  | nil =>
    rw [show String.intercalate.go acc " " [] = acc from rfl, List.flatMap_nil,
      List.append_nil]
  | cons a as' ih =>
    rw [show String.intercalate.go acc " " (a :: as') =
        String.intercalate.go (acc ++ " " ++ a) " " as' from rfl, ih,
      String.data_append, String.data_append,
      show (" " : String).data = [' '] from rfl, List.flatMap_cons,
      List.append_assoc, List.append_assoc]
    rfl

theorem intercalate_data (ws : List String) :
    (String.intercalate " " ws).data = joinChars (ws.map String.data) := by
  cases ws with
  | nil => rfl
  | cons a as =>
    rw [show String.intercalate " " (a :: as) = String.intercalate.go a " " as
      from rfl, intercalate_go_data, List.map_cons]
    show a.data ++ as.flatMap (fun x => ' ' :: x.data) =
      a.data ++ (as.map String.data).flatMap (fun t => ' ' :: t)
    congr 1
    induction as with
    | nil => rfl
    | cons b bs ihb =>
      rw [List.flatMap_cons, List.map_cons, List.flatMap_cons, ihb]

theorem joinChars_mem (ll : List (List Char)) (c : Char) (hc : c ∈ joinChars ll) :
    (∃ w ∈ ll, c ∈ w) ∨ c = ' ' := by
  cases ll with
  | nil => exact absurd hc (List.not_mem_nil c)
  | cons w ws =>
    rcases List.mem_append.mp hc with h | h
    · exact Or.inl ⟨w, List.mem_cons_self w ws, h⟩
    · obtain ⟨t, ht, hct⟩ := List.mem_flatMap.mp h
      rcases List.mem_cons.mp hct with rfl | h2
      · exact Or.inr rfl
      · exact Or.inl ⟨t, List.mem_cons_of_mem w ht, h2⟩

/-- Splitting `" ".join(words)` on whitespace recovers the words, provided
each word is nonempty and whitespace-free. -/
theorem pySplit_joinChars : ∀ (ws : List (List Char)) (w : List Char),
    (∀ u ∈ w :: ws, u ≠ [] ∧ ∀ c ∈ u, pySpace c = false) →
    pySplit (joinChars (w :: ws)) = w :: ws := by
  intro ws
  induction ws with
  | nil =>
    intro w h
    show pySplit (w ++ [].flatMap (fun t => ' ' :: t)) = [w]
    rw [List.flatMap_nil, List.append_nil]
    unfold pySplit
    rw [splitOnP_all_false pySpace w (h w (List.mem_cons_self w [])).2,
      List.filter_cons, if_pos (decide_eq_true (h w (List.mem_cons_self w [])).1)]
    rfl
  | cons v ws' ih =>
    intro w h
    have hj : joinChars (w :: v :: ws') = w ++ ' ' :: joinChars (v :: ws') := by
      show w ++ (v :: ws').flatMap (fun t => ' ' :: t) =
        w ++ ' ' :: (v ++ ws'.flatMap (fun t => ' ' :: t))
      rw [List.flatMap_cons, List.cons_append]
    rw [hj]
    unfold pySplit
    rw [splitOnP_append_sep pySpace w ' ' _
        (h w (List.mem_cons_self w (v :: ws'))).2 space_space,
      List.filter_cons,
      if_pos (decide_eq_true (h w (List.mem_cons_self w (v :: ws'))).1)]
    have := ih v (fun u hu => h u (List.mem_cons_of_mem w hu))
    unfold pySplit at this
    rw [this]

/-- Facts about the tokens of the bot normalization: nonempty, no
whitespace, only lower-case word characters. -/
theorem bot_token_facts (raw : List Char) :
    ∀ t ∈ pySplit (lowerChars (raw.filter (fun c => pyWordChar c || pySpace c))),
      t ≠ [] ∧ ∀ c ∈ t, pySpace c = false ∧ pyWordChar c = true ∧
        Char.toLower c = c := by
  intro t ht
  unfold pySplit at ht
  have htm := List.mem_filter.mp ht
  refine ⟨by simpa using htm.2, ?_⟩
  intro c hc
  obtain ⟨hcl, hcf⟩ := splitOnP_chars pySpace _ t htm.1 c hc
  obtain ⟨a, ha, rfl⟩ := List.mem_map.mp hcl
  have hak : (pyWordChar a || pySpace a) = true := (List.mem_filter.mp ha).2
  have hcls := class_toLower a hak
  refine ⟨hcf, ?_, toLower_idem a⟩
  rcases (Bool.or_eq_true ..).mp hcls with h | h
  · exact h
  · rw [h] at hcf
    exact absurd hcf (by simp)

theorem string_le_trans_b (a b c : String) (hab : decide (a ≤ b) = true)
    (hbc : decide (b ≤ c) = true) : decide (a ≤ c) = true :=
  decide_eq_true (le_trans (of_decide_eq_true hab) (of_decide_eq_true hbc))

theorem string_le_total_b (a b : String) :
    (decide (a ≤ b) || decide (b ≤ a)) = true := by
  rcases le_total a b with h | h
  · rw [decide_eq_true h]
    simp
  · rw [decide_eq_true h]
    simp

/-- TalkEHRBot normalize_name is a fixed point of a second pass. -/
theorem bot_normalize_idem (s : String) :
    bot_normalize_name (bot_normalize_name s) = bot_normalize_name s := by
  set T := pySplit (lowerChars
    (s.data.filter (fun c => pyWordChar c || pySpace c))) with hT
  set ws : List String :=
    (T.map (fun t => (⟨t⟩ : String))).mergeSort (fun a b => decide (a ≤ b)) with hws
  have hwmem : ∀ w ∈ ws, w.data ≠ [] ∧ ∀ c ∈ w.data,
      pySpace c = false ∧ pyWordChar c = true ∧ Char.toLower c = c := by
    intro w hw
    rw [hws, List.mem_mergeSort] at hw
    obtain ⟨t, ht, rfl⟩ := List.mem_map.mp hw
    exact bot_token_facts s.data t (hT ▸ ht)
  have hout : bot_normalize_name s = String.intercalate " " ws := by
    rw [bot_normalize_name, hws, hT]
  have hdata : (String.intercalate " " ws).data = joinChars (ws.map String.data) :=
    intercalate_data ws
  have hfilter : (String.intercalate " " ws).data.filter
      (fun c => pyWordChar c || pySpace c) = (String.intercalate " " ws).data := by
    rw [List.filter_eq_self]
    intro c hc
    rw [hdata] at hc
    rcases joinChars_mem _ c hc with ⟨w, hwin, hcw⟩ | rfl
    · obtain ⟨u, hu, rfl⟩ := List.mem_map.mp hwin
      rw [Bool.or_eq_true]
      exact Or.inl ((hwmem u hu).2 c hcw).2.1
    · rw [Bool.or_eq_true]
      exact Or.inr space_space
  have hlower : lowerChars (String.intercalate " " ws).data =
      (String.intercalate " " ws).data := by
    refine lower_id _ ?_
    intro c hc
    rw [hdata] at hc
    rcases joinChars_mem _ c hc with ⟨w, hwin, hcw⟩ | rfl
    · obtain ⟨u, hu, rfl⟩ := List.mem_map.mp hwin
      exact ((hwmem u hu).2 c hcw).2.2
    · exact toLower_space
  have hsplit : pySplit (String.intercalate " " ws).data = ws.map String.data := by
    rw [hdata]
    cases hcase : ws.map String.data with
    | nil => rfl
    | cons w rest =>
      refine pySplit_joinChars rest w ?_
      intro u hu
      rw [← hcase] at hu
      obtain ⟨v, hv, rfl⟩ := List.mem_map.mp hu
      exact ⟨(hwmem v hv).1, fun c hc => ((hwmem v hv).2 c hc).1⟩
  have hmk : (ws.map String.data).map (fun t => (⟨t⟩ : String)) = ws := by
    rw [List.map_map, show ((fun t => (⟨t⟩ : String)) ∘ String.data) = id from
      funext (fun w => rfl), List.map_id]
  have hsorted : List.Sorted (fun a b : String => a ≤ b) ws := by
    rw [hws]
    exact (@List.sorted_mergeSort String (fun a b => decide (a ≤ b))
      string_le_trans_b string_le_total_b
      (T.map (fun t => (⟨t⟩ : String)))).imp (fun h => of_decide_eq_true h)
  rw [hout]
  show bot_normalize_name (String.intercalate " " ws) = String.intercalate " " ws
  rw [bot_normalize_name, hfilter, hlower, hsplit, hmk,
    List.mergeSort_eq_self hsorted]

/-- C9: both normalizers (helper.py `normalize_name` -- punctuation to
spaces, lower-case, collapse whitespace runs, strip -- and
`TalkEHRBot.normalize_name` -- delete punctuation, lower-case, split, sort,
rejoin) are idempotent. -/
theorem c9_normalize_idempotent (s : String) :
    normalize_name (normalize_name s) = normalize_name s ∧
    bot_normalize_name (bot_normalize_name s) = bot_normalize_name s := by
  constructor
  · show (⟨stripWs (collapseWsAux false (lowerChars (punctToSpace
        (normalize_name s).data)))⟩ : String) = normalize_name s
    rw [show (normalize_name s).data = stripWs (collapseWsAux false
        (lowerChars (punctToSpace s.data))) from rfl]
    exact congrArg (fun d => (⟨d⟩ : String)) (normalize_idem_data s.data)
  · exact bot_normalize_idem s

end Fax
